import Mathlib

/-!
Shallow embedding of the midiflow `PatternFlow` dependency-graph engine
(src/midiflow/flow.py) together with the parts of `pattern.py` and
`modifier.py` that the engine observes.

Python dictionaries (`nodes`, `_outputs`, `_cache`) are embedded as
association lists with the usual dict semantics: lookup finds the first
matching key, assignment replaces the value in place (or appends a fresh
key at the end, matching insertion order), deletion removes the key.
Python sets (the members of `_outputs` and the `path`/`visited_global`
sets of the cycle checker) are embedded as duplicate-free lists; only
membership and insertion/removal are ever used.

Python exceptions are embedded with `Except`: every operation returns the
outcome together with the state as mutated so far, because an escaping
Python exception leaves all mutations that already happened in place.
Possibly non-terminating recursion (`synth`, `populate`) is embedded with
a fuel parameter; `none` means the recursion depth budget was exhausted,
which never happens on acyclic graphs (proved below).
-/

set_option autoImplicit false

/-- A note, from `pattern.py` (`class Note`): duration, MIDI note number,
velocity.  `Fraction` is embedded as `Rat`; the int fields as `Int`. -/
structure Note where
  duration : Rat
  note : Int
  velocity : Int
deriving DecidableEq, Repr

/-- A pattern, from `pattern.py` (`class Pattern`): notes indexed by start
time plus a duration.  The engine in `flow.py` never inspects these
fields; it only needs the default-constructed value `Pattern()`. -/
structure Pattern where
  notes : List (Rat × Note)
  duration : Rat
deriving DecidableEq, Repr

/-- `Pattern()` with all pydantic defaults: `notes = []` and
`duration = max(..., default=Fraction(0)) = 0` (from `post_validation`). -/
def Pattern.empty : Pattern := ⟨[], 0⟩

/-- The capability interface of `modifier.py` as the flow engine sees it
(spec section 6): `modifier.forward` takes the ordered positional pattern
values and the named keyword pattern values and returns one pattern.  The
engine is polymorphic over the concrete `Modifier` subclass and never
inspects it, so the embedding keeps the capability opaque as a function
value. -/
def Modifier : Type := List Pattern → List (String × Pattern) → Pattern

/-- Calling `modifier.forward(*input_patterns, **kwinput_patterns)`. -/
def Modifier.forward (m : Modifier) (ps : List Pattern) (kws : List (String × Pattern)) : Pattern :=
  m ps kws

/-- `class FromPattern(Modifier)`: simply returns a predefined pattern. -/
def FromPattern (p : Pattern) : Modifier := fun _ _ => p

/-- A node of the flow graph, from `flow.py` (`class PatternFlowNode`).

The source annotates `inputs : list[str]` and
`kwinputs : dict[str, str | None]`.  The engine code, however, guards
every positional reference with `is not None` exactly like the keyword
references, so the embedding carries `Option String` for both and models
the pydantic field validation separately (`PatternFlowNode.pydValid`). -/
structure PatternFlowNode where
  modifier : Modifier
  inputs : List (Option String)
  kwinputs : List (String × Option String)

/-- The pydantic validation of `PatternFlowNode`'s reference fields:
`inputs : list[str]` rejects a `None` entry (`Input should be a valid
string`), while `kwinputs : dict[str, str | None]` accepts `None`
values.  A node with a null positional reference can therefore never be
constructed. -/
def PatternFlowNode.pydValid (n : PatternFlowNode) : Bool :=
  n.inputs.all Option.isSome

/-- The reference list `node.inputs + list(node.kwinputs.values())`, the
exact expression iterated by `model_post_init`, `has_cycle`,
`validate_no_cycles`, `create`, `update` and `delete`. -/
def PatternFlowNode.refs (n : PatternFlowNode) : List (Option String) :=
  n.inputs ++ n.kwinputs.map Prod.snd

/-- The Python exceptions raised by `flow.py`: `KeyError` (spec:
`NotFound`) and `ValueError` (spec: `CycleError`).  Each carries the node
id mentioned by the message (the empty string for the construction-time
`ValueError`, whose message names no id). -/
inductive Err where
  | keyError (id : String)
  | valueError (id : String)
deriving DecidableEq, Repr

namespace Dict

/-- Dict lookup `d[k]` / `k in d`: first entry with the key. -/
def get {α : Type} (l : List (String × α)) (k : String) : Option α :=
  match l with
  | [] => none
  | (k', v) :: rest => if k' = k then some v else get rest k

/-- Dict assignment `d[k] = v`: replace in place, else append. -/
def set {α : Type} (l : List (String × α)) (k : String) (v : α) : List (String × α) :=
  match l with
  | [] => [(k, v)]
  | (k', v') :: rest => if k' = k then (k, v) :: rest else (k', v') :: set rest k v

/-- Dict deletion `if k in d: del d[k]`. -/
def erase {α : Type} (l : List (String × α)) (k : String) : List (String × α) :=
  l.filter fun p => decide (p.1 ≠ k)

/-- The key list, in insertion order. -/
def keys {α : Type} (l : List (String × α)) : List String :=
  l.map Prod.fst

end Dict

/-- Python `set.add` on a member of `_outputs`:
`self._outputs[k].add (v)` raises `KeyError` when `k` is missing. -/
def setAdd (outs : List (String × List String)) (k v : String) :
    Except Err (List (String × List String)) :=
  match Dict.get outs k with
  | none => .error (.keyError k)
  | some s => .ok (Dict.set outs k (if v ∈ s then s else s ++ [v]))

/-- Python `set.discard` on a member of `_outputs`:
`self._outputs[k].discard (v)` raises `KeyError` when `k` is missing
(discarding an absent member is fine). -/
def setDiscard (outs : List (String × List String)) (k v : String) :
    Except Err (List (String × List String)) :=
  match Dict.get outs k with
  | none => .error (.keyError k)
  | some s => .ok (Dict.set outs k (s.erase v))

/-- A loop `for input_id in refs: if input_id is not None:
self._outputs[input_id].add (member)`, returning the outputs as mutated
so far when a lookup raises. -/
def setAddAll (outs : List (String × List String)) (refs : List (Option String))
    (member : String) : Except Err Unit × List (String × List String) :=
  match refs with
  | [] => (.ok (), outs)
  | none :: rest => setAddAll outs rest member
  | some k :: rest =>
    match setAdd outs k member with
    | .error e => (.error e, outs)
    | .ok outs' => setAddAll outs' rest member

/-- The corresponding `discard` loop (used by `update` and `delete`). -/
def setDiscardAll (outs : List (String × List String)) (refs : List (Option String))
    (member : String) : Except Err Unit × List (String × List String) :=
  match refs with
  | [] => (.ok (), outs)
  | none :: rest => setDiscardAll outs rest member
  | some k :: rest =>
    match setDiscard outs k member with
    | .error e => (.error e, outs)
    | .ok outs' => setDiscardAll outs' rest member

/-- The graph, from `flow.py` (`class PatternFlow`): the public `nodes`
dict and the private `_outputs` (reverse edges) and `_cache` attributes. -/
structure PatternFlow where
  nodes : List (String × PatternFlowNode)
  outputs : List (String × List String)
  cache : List (String × Option Pattern)

namespace Dict

theorem get_mem {α : Type} {l : List (String × α)} {k : String} {v : α}
    (h : get l k = some v) : (k, v) ∈ l := by
  induction l with
  | nil => simp [get] at h
  | cons p rest ih =>
    obtain ⟨k', v'⟩ := p
    by_cases hk : k' = k
    · subst hk
      simp [get] at h
      simp [h]
    · simp [get, hk] at h
      exact List.mem_cons_of_mem _ (ih h)

theorem mem_keys_of_get {α : Type} {l : List (String × α)} {k : String} {v : α}
    (h : get l k = some v) : k ∈ keys l := by
  simpa [keys] using List.mem_map_of_mem Prod.fst (get_mem h)

end Dict

/-- A filter by a stronger predicate is strictly shorter as soon as some
list element separates the two predicates.  Termination measure lemma for
the embedded depth-first cycle search. -/
theorem length_filter_lt_length_filter {α : Type} (l : List α) (p q : α → Bool)
    (hpq : ∀ x, p x = true → q x = true) (a : α) (ha : a ∈ l)
    (hpa : p a = false) (hqa : q a = true) :
    (l.filter p).length < (l.filter q).length := by
  induction l with
  | nil => cases ha
  | cons b l ih =>
    by_cases hb : b = a
    · subst hb
      have hsub : List.Sublist (l.filter p) (l.filter q) :=
        List.monotone_filter_right l hpq
      rw [List.filter_cons_of_neg (by simp [hpa]), List.filter_cons_of_pos (by simp [hqa])]
      exact Nat.lt_succ_of_le hsub.length_le
    · have ha' : a ∈ l := by
        rcases List.mem_cons.mp ha with h | h
        · exact absurd h.symm hb
        · exact h
      cases hp : p b with
      | true =>
        rw [List.filter_cons_of_pos (by simp [hp]),
          List.filter_cons_of_pos (by simp [hpq b hp])]
        exact Nat.succ_lt_succ (ih ha')
      | false =>
        rw [List.filter_cons_of_neg (by simp [hp])]
        cases hq : q b with
        | true =>
          rw [List.filter_cons_of_pos (by simp [hq])]
          exact Nat.lt_succ_of_lt (ih ha')
        | false =>
          rw [List.filter_cons_of_neg (by simp [hq])]
          exact ih ha'

/-- The loop body of `_has_cycle_from` over the reference list (lines
91-95 of flow.py): a `None` reference is skipped, a `True` result returns
immediately, otherwise the (mutated) global visited set threads into the
next iteration.  Takes the recursive step as a function so the driver
below can recurse through it. -/
def cycleListWith (step : String → List String → Bool × List String) :
    List (Option String) → List String → Bool × List String
  | [], visited => (false, visited)
  | none :: rest, visited => cycleListWith step rest visited
  | some rid :: rest, visited =>
    match step rid visited with
    | (true, vis') => (true, vis')
    | (false, vis') => cycleListWith step rest vis'

/-- `_has_cycle_from(current, path, visited_global)` (lines 59-99).

The Python code mutates the `path` set in place but restores it exactly
on every `False` return, and a `True` return unwinds the whole search, so
each loop iteration observes the same `path`; the embedding passes
`current :: path` to every child explicitly and threads only the global
visited set.  `path` is kept as the list of nodes on the current DFS
stack (most recent first), which carries the same membership as the
Python set. -/
def hasCycleFrom (g : PatternFlow) (current : String) (path visited : List String) :
    Bool × List String :=
  match hnode : Dict.get g.nodes current with
  | none => (false, visited)
  | some node =>
    if hpath : current ∈ path then (true, visited)
    else if current ∈ visited then (false, visited)
    else
      cycleListWith (fun rid vis => hasCycleFrom g rid (current :: path) vis)
        node.refs (current :: visited)
termination_by ((Dict.keys g.nodes).filter fun x => decide (x ∉ path)).length
decreasing_by
  refine length_filter_lt_length_filter _ _ _ ?_ current (Dict.mem_keys_of_get hnode) ?_ ?_
  · intro x hx
    simp only [decide_eq_true_eq] at hx ⊢
    exact fun hxp => hx (List.mem_cons_of_mem _ hxp)
  · simp
  · simpa using hpath

/-- The whole-graph loop of `has_cycle()` with `id=None` (lines 48-55):
walk every node key, skipping keys already proven cycle-free, threading
one global visited set. -/
def hasCycleAll (g : PatternFlow) : List String → List String → Bool
  | [], _ => false
  | k :: rest, visited =>
    if k ∈ visited then hasCycleAll g rest visited
    else
      match hasCycleFrom g k [] visited with
      | (true, _) => true
      | (false, visited') => hasCycleAll g rest visited'

/-- `has_cycle()` with no start id. -/
def PatternFlow.hasCycle (g : PatternFlow) : Bool :=
  hasCycleAll g (Dict.keys g.nodes) []

/-- `has_cycle(id)` with a start id: `self._has_cycle_from(id, set(), set())`. -/
def PatternFlow.hasCycleStart (g : PatternFlow) (id : String) : Bool :=
  (hasCycleFrom g id [] []).1

/-- The reference edge relation of the graph: `a` directly references `b`
(that is, `b` appears in `a`'s `inputs`/`kwinputs`).  The target need not
exist as a node (a dangling reference still is an edge; the cycle checker
treats it as a dead end because it has no outgoing edges). -/
def PatternFlow.Ref (g : PatternFlow) (a b : String) : Prop :=
  ∃ n, Dict.get g.nodes a = some n ∧ some b ∈ n.refs

/-- `a` reaches `b` by following one or more reference edges. -/
def PatternFlow.Steps (g : PatternFlow) : String → String → Prop :=
  Relation.TransGen g.Ref

/-- Acyclicity: following reference edges never returns to the start. -/
def PatternFlow.Acyclic (g : PatternFlow) : Prop := ∀ a, ¬ g.Steps a a

/-- The cache dictionary `_cache : dict[str, Pattern | None]`. -/
abbrev Cache := List (String × Option Pattern)

/-- The cache test of `synth` (line 132):
`id in self._cache and self._cache[id] is not None`. -/
def cacheHit (c : Cache) (id : String) : Option Pattern :=
  match Dict.get c id with
  | some (some p) => some p
  | _ => none

/-- The loop of `synth` over `node.inputs` (lines 138-140): each
reference is synthesized recursively without force, a null reference
yields `Pattern()`; the first exception aborts the loop with the cache as
mutated so far.  Takes the recursive step as a function. -/
def synthListWith (s : Cache → String → Option (Except Err Pattern × Cache)) :
    Cache → List (Option String) → Option (Except Err (List Pattern) × Cache)
  | c, [] => some (.ok [], c)
  | c, ref :: rest =>
    match (match ref with
           | none => some (Except.ok Pattern.empty, c)
           | some rid => s c rid) with
    | none => none
    | some (.error e, c₁) => some (.error e, c₁)
    | some (.ok p, c₁) =>
      match synthListWith s c₁ rest with
      | none => none
      | some (.error e, c₂) => some (.error e, c₂)
      | some (.ok ps, c₂) => some (.ok (p :: ps), c₂)

/-- The loop of `synth` over `node.kwinputs.items()` (lines 143-145). -/
def synthKwWith (s : Cache → String → Option (Except Err Pattern × Cache)) :
    Cache → List (String × Option String) →
    Option (Except Err (List (String × Pattern)) × Cache)
  | c, [] => some (.ok [], c)
  | c, (key, ref) :: rest =>
    match (match ref with
           | none => some (Except.ok Pattern.empty, c)
           | some rid => s c rid) with
    | none => none
    | some (.error e, c₁) => some (.error e, c₁)
    | some (.ok p, c₁) =>
      match synthKwWith s c₁ rest with
      | none => none
      | some (.error e, c₂) => some (.error e, c₂)
      | some (.ok ps, c₂) => some (.ok ((key, p) :: ps), c₂)

/-- `synth(id, force)` (lines 113-153), reading the node dict and
threading the cache.  The fuel bounds the recursion depth; `none` models
a non-terminating (stack-exhausting) run and never occurs on acyclic
graphs. -/
def synthF (nodes : List (String × PatternFlowNode)) :
    Nat → Cache → String → Bool → Option (Except Err Pattern × Cache)
  | 0, _, _, _ => none
  | fuel + 1, c, id, force =>
    match Dict.get nodes id with
    | none => some (.error (.keyError id), c)
    | some node =>
      match (if force then none else cacheHit c id) with
      | some p => some (.ok p, c)
      | none =>
        match synthListWith (fun c' rid => synthF nodes fuel c' rid false) c node.inputs with
        | none => none
        | some (.error e, c₁) => some (.error e, c₁)
        | some (.ok ips, c₁) =>
          match synthKwWith (fun c' rid => synthF nodes fuel c' rid false) c₁ node.kwinputs with
          | none => none
          | some (.error e, c₂) => some (.error e, c₂)
          | some (.ok kps, c₂) =>
            let result := node.modifier.forward ips kps
            some (.ok result, Dict.set c₂ id (some result))

/-- Positional-input loop of the cache-free denotation (specification
device, mirroring `synthListWith` without a cache). -/
def denoteListWith (d : String → Option (Except Err Pattern)) :
    List (Option String) → Option (Except Err (List Pattern))
  | [] => some (.ok [])
  | ref :: rest =>
    match (match ref with
           | none => some (Except.ok Pattern.empty)
           | some rid => d rid) with
    | none => none
    | some (.error e) => some (.error e)
    | some (.ok p) =>
      match denoteListWith d rest with
      | none => none
      | some (.error e) => some (.error e)
      | some (.ok ps) => some (.ok (p :: ps))

/-- Keyword-input loop of the cache-free denotation. -/
def denoteKwWith (d : String → Option (Except Err Pattern)) :
    List (String × Option String) → Option (Except Err (List (String × Pattern)))
  | [] => some (.ok [])
  | (key, ref) :: rest =>
    match (match ref with
           | none => some (Except.ok Pattern.empty)
           | some rid => d rid) with
    | none => none
    | some (.error e) => some (.error e)
    | some (.ok p) =>
      match denoteKwWith d rest with
      | none => none
      | some (.error e) => some (.error e)
      | some (.ok ps) => some (.ok ((key, p) :: ps))

/-- The cache-free denotation of a node: the value `synth` would compute
with every cache slot empty.  This is "the capability output that would
be produced by evaluating the node against the current graph state" of
spec invariant 4 — a specification device, not code from the source. -/
def denoteF (nodes : List (String × PatternFlowNode)) :
    Nat → String → Option (Except Err Pattern)
  | 0, _ => none
  | fuel + 1, id =>
    match Dict.get nodes id with
    | none => some (.error (.keyError id))
    | some node =>
      match denoteListWith (denoteF nodes fuel) node.inputs with
      | none => none
      | some (.error e) => some (.error e)
      | some (.ok ips) =>
        match denoteKwWith (denoteF nodes fuel) node.kwinputs with
        | none => none
        | some (.error e) => some (.error e)
        | some (.ok kps) => some (.ok (node.modifier.forward ips kps))

/-- The cache-free denotation at the canonical fuel. -/
def denoteOp (nodes : List (String × PatternFlowNode)) (id : String) :
    Option (Except Err Pattern) :=
  denoteF nodes (nodes.length + 1) id

/-- The downstream loop shared by `populate` (lines 170-172) and `delete`
(lines 269-271): populate each listed id in order, aborting on the first
exception. -/
def populateListWith (p : Cache → String → Option (Except Err Unit × Cache)) :
    Cache → List String → Option (Except Err Unit × Cache)
  | c, [] => some (.ok (), c)
  | c, d :: rest =>
    match p c d with
    | none => none
    | some (.error e, c') => some (.error e, c')
    | some (.ok _, c') => populateListWith p c' rest

/-- `populate(id)` (lines 155-172): force-synthesize `id`, then
recursively populate every id in `self._outputs.get(id, set())`.  Each
inner `synth` call receives the canonical fuel; the populate fuel bounds
the reverse-edge recursion depth. -/
def populateF (nodes : List (String × PatternFlowNode))
    (outputs : List (String × List String)) :
    Nat → Cache → String → Option (Except Err Unit × Cache)
  | 0, _, _ => none
  | fuel + 1, c, id =>
    match Dict.get nodes id with
    | none => some (.error (.keyError id), c)
    | some _ =>
      match synthF nodes (nodes.length + 1) c id true with
      | none => none
      | some (.error e, c') => some (.error e, c')
      | some (.ok _, c') =>
        populateListWith (fun c'' d => populateF nodes outputs fuel c'' d) c'
          ((Dict.get outputs id).getD [])

/-- `synth(id, force)` as a public operation on the graph state. -/
def PatternFlow.synthOp (g : PatternFlow) (id : String) (force : Bool) :
    Option (Except Err Pattern × PatternFlow) :=
  (synthF g.nodes (g.nodes.length + 1) g.cache id force).map
    fun rc => (rc.1, { g with cache := rc.2 })

/-- `populate(id)` as a public operation on the graph state. -/
def PatternFlow.populateOp (g : PatternFlow) (id : String) :
    Option (Except Err Unit × PatternFlow) :=
  (populateF g.nodes g.outputs (g.nodes.length + 1) g.cache id).map
    fun rc => (rc.1, { g with cache := rc.2 })

/-- The validation loop of `create` (lines 183-185): the first referenced
id absent from `nodes` (`None` references are skipped). -/
def firstBadRef (nodes : List (String × PatternFlowNode)) :
    List (Option String) → Option String
  | [] => none
  | none :: rest => firstBadRef nodes rest
  | some r :: rest =>
    if (Dict.get nodes r).isSome then firstBadRef nodes rest else some r

/-- `create(node)` (lines 174-196).  The source draws the fresh node id
from `uuid4()`; the embedding takes the generated id as an argument, and
theorems that rely on uuid uniqueness state it as a hypothesis. -/
def PatternFlow.create (g : PatternFlow) (newId : String) (node : PatternFlowNode) :
    Except Err String × PatternFlow :=
  match firstBadRef g.nodes node.refs with
  | some bad => (.error (.keyError bad), g)
  | none =>
    let nodes' := Dict.set g.nodes newId node
    let outs₁ := Dict.set g.outputs newId []
    match setAddAll outs₁ node.refs newId with
    | (.error e, outs₂) => (.error e, ⟨nodes', outs₂, g.cache⟩)
    | (.ok _, outs₂) => (.ok newId, ⟨nodes', outs₂, g.cache⟩)

/-- `update(id, node)` (lines 198-242).  On the cycle branch the node is
rolled back in place and `ValueError` raised; otherwise the reverse-edge
index is rebuilt (old references discarded, new ones added — raising
`KeyError` mid-rebuild if a referenced id has no `_outputs` entry), then
`populate(id)` runs and the cache slot of `id` is returned.  The final
`return self._cache[id]` is a plain dict access of a `Pattern | None`
slot, embedded as an `Option Pattern` result. -/
def PatternFlow.update (g : PatternFlow) (id : String) (node : PatternFlowNode) :
    Option (Except Err (Option Pattern) × PatternFlow) :=
  match Dict.get g.nodes id with
  | none => some (.error (.keyError id), g)
  | some oldNode =>
    let nodes₁ := Dict.set g.nodes id node
    let g₁ : PatternFlow := { g with nodes := nodes₁ }
    if g₁.hasCycleStart id then
      some (.error (.valueError id), { g with nodes := Dict.set nodes₁ id oldNode })
    else
      match setDiscardAll g.outputs oldNode.refs id with
      | (.error e, outs₁) => some (.error e, ⟨nodes₁, outs₁, g.cache⟩)
      | (.ok _, outs₁) =>
        match setAddAll outs₁ node.refs id with
        | (.error e, outs₂) => some (.error e, ⟨nodes₁, outs₂, g.cache⟩)
        | (.ok _, outs₂) =>
          match populateF nodes₁ outs₂ (nodes₁.length + 1) g.cache id with
          | none => none
          | some (.error e, c') => some (.error e, ⟨nodes₁, outs₂, c'⟩)
          | some (.ok _, c') =>
            match Dict.get c' id with
            | none => some (.error (.keyError id), ⟨nodes₁, outs₂, c'⟩)
            | some po => some (.ok po, ⟨nodes₁, outs₂, c'⟩)

/-- `delete(id)` (lines 244-271): capture the consumer set, discard `id`
from the outputs of everything it referenced, delete the node, outputs
and cache entries, then populate every captured former consumer on the
mutated graph. -/
def PatternFlow.delete (g : PatternFlow) (id : String) :
    Option (Except Err Unit × PatternFlow) :=
  match Dict.get g.nodes id with
  | none => some (.error (.keyError id), g)
  | some node =>
    let downstream := (Dict.get g.outputs id).getD []
    match setDiscardAll g.outputs node.refs id with
    | (.error e, outs₁) => some (.error e, { g with outputs := outs₁ })
    | (.ok _, outs₁) =>
      let nodes' := Dict.erase g.nodes id
      let outs₂ := Dict.erase outs₁ id
      let cache' := Dict.erase g.cache id
      match populateListWith (fun c d => populateF nodes' outs₂ (nodes'.length + 1) c d)
          cache' downstream with
      | none => none
      | some (.error e, c') => some (.error e, ⟨nodes', outs₂, c'⟩)
      | some (.ok _, c') => some (.ok (), ⟨nodes', outs₂, c'⟩)

/-- The outputs construction of `model_post_init` (lines 32-37): start
from `{node_id: set() for node_id in nodes}` and add every node as a
consumer of each of its references; a dangling reference raises
`KeyError` from the `self._outputs[input_id]` lookup. -/
def buildOutputs : List (String × PatternFlowNode) → List (String × List String) →
    Except Err (List (String × List String))
  | [], outs => .ok outs
  | (k, n) :: rest, outs =>
    match setAddAll outs n.refs k with
    | (.error e, _) => .error e
    | (.ok _, outs') => buildOutputs rest outs'

/-- The id-validity loop of `validate_no_cycles` (lines 107-110): the
first reference naming an id absent from `nodes`. -/
def validateIds (nodes : List (String × PatternFlowNode)) :
    List (String × PatternFlowNode) → Option String
  | [] => none
  | (_, n) :: rest =>
    match firstBadRef nodes n.refs with
    | some bad => some bad
    | none => validateIds nodes rest

/-- Graph construction `PatternFlow(nodes=...)`: pydantic validates the
fields, runs `model_post_init` (cache then outputs construction) and then
the `validate_no_cycles` model validator (cycle check, then id check).
Any exception aborts construction and no instance is produced. -/
def PatternFlow.make (nodes : List (String × PatternFlowNode)) : Except Err PatternFlow :=
  let cache : Cache := nodes.map fun p => (p.1, none)
  match buildOutputs nodes (nodes.map fun p => (p.1, [])) with
  | .error e => .error e
  | .ok outs =>
    let g : PatternFlow := ⟨nodes, outs, cache⟩
    if g.hasCycle then .error (.valueError "")
    else
      match validateIds nodes nodes with
      | some bad => .error (.keyError bad)
      | none => .ok g

namespace Dict

theorem get_set_self {α : Type} (l : List (String × α)) (k : String) (v : α) :
    get (set l k v) k = some v := by
  induction l with
  | nil => simp [get, set]
  | cons p rest ih =>
    obtain ⟨k', v'⟩ := p
    by_cases hk : k' = k
    · simp [set, hk, get]
    · simp [set, hk, get, ih]

theorem get_set_ne {α : Type} (l : List (String × α)) (k k' : String) (v : α)
    (h : k' ≠ k) : get (set l k v) k' = get l k' := by
  have hkk : ¬ (k = k') := fun hc => h hc.symm
  induction l with
  | nil => simp [get, set, hkk]
  | cons p rest ih =>
    obtain ⟨ka, va⟩ := p
    by_cases hk : ka = k
    · subst hk
      simp [set, get, hkk]
    · simp only [set, hk, if_false, get]
      by_cases hk' : ka = k'
      · simp [hk']
      · simp [hk', ih]

theorem set_set_cancel {α : Type} (l : List (String × α)) (k : String) (v v' : α)
    (h : get l k = some v) : set (set l k v') k v = l := by
  induction l with
  | nil => simp [get] at h
  | cons p rest ih =>
    obtain ⟨ka, va⟩ := p
    by_cases hk : ka = k
    · subst hk
      have hv : va = v := by simpa [get] using h
      subst hv
      simp [set]
    · simp only [get, hk, if_false] at h
      simp [set, hk, ih h]

theorem get_erase_self {α : Type} (l : List (String × α)) (k : String) :
    get (erase l k) k = none := by
  induction l with
  | nil => simp [get, erase]
  | cons p rest ih =>
    obtain ⟨ka, va⟩ := p
    by_cases hk : ka = k
    · simpa [erase, List.filter_cons, hk] using ih
    · simpa [erase, List.filter_cons, hk, get] using ih

theorem get_erase_ne {α : Type} (l : List (String × α)) (k k' : String)
    (h : k' ≠ k) : get (erase l k) k' = get l k' := by
  induction l with
  | nil => simp [get, erase]
  | cons p rest ih =>
    obtain ⟨ka, va⟩ := p
    by_cases hk : ka = k
    · subst hk
      have hne : ¬ (ka = k') := fun hc => h hc.symm
      simpa [erase, List.filter_cons, get, hne] using ih
    · by_cases hk' : ka = k'
      · subst hk'
        simp [erase, List.filter_cons, hk, get]
      · simpa [erase, List.filter_cons, hk, hk', get] using ih

theorem get_of_not_mem_keys {α : Type} {l : List (String × α)} {k : String}
    (h : k ∉ keys l) : get l k = none := by
  induction l with
  | nil => rfl
  | cons p rest ih =>
    obtain ⟨ka, va⟩ := p
    simp only [keys, List.map_cons, List.mem_cons] at h
    push_neg at h
    simp only [get]
    rw [if_neg fun hc => h.1 hc.symm]
    exact ih (by simpa [keys] using h.2)

end Dict

/-- A node from which a cycle is reachable (possibly by lying on one). -/
def PatternFlow.ReachesCycle (g : PatternFlow) (x : String) : Prop :=
  ∃ a, (x = a ∨ g.Steps x a) ∧ g.Steps a a

/-- The `path` argument of the depth-first search is the current DFS
stack (most recent first): each stack entry has a reference edge to the
entry above it, the top one to `current`. -/
inductive PathChain (g : PatternFlow) : String → List String → Prop
  | nil (current : String) : PathChain g current []
  | cons (current p : String) (rest : List String) :
      g.Ref p current → PathChain g p rest → PathChain g current (p :: rest)

/-- Invariant of the global visited set: every visited node not on the
current path has been fully explored and cannot reach a cycle. -/
def SafeInv (g : PatternFlow) (visited path : List String) : Prop :=
  ∀ v ∈ visited, v ∉ path → ¬ g.ReachesCycle v

theorem pathChain_steps {g : PatternFlow} {cur : String} {path : List String}
    (h : PathChain g cur path) : ∀ p ∈ path, g.Steps p cur := by
  induction h with
  | nil => intro p hp; cases hp
  | cons current q rest hq hrest ih =>
    intro p hp
    rcases List.mem_cons.mp hp with rfl | hp
    · exact Relation.TransGen.single hq
    · exact Relation.TransGen.tail (ih p hp) hq

theorem steps_self_of_mem_path {g : PatternFlow} {cur : String} {path : List String}
    (h : PathChain g cur path) (hmem : cur ∈ path) : g.Steps cur cur :=
  pathChain_steps h cur hmem

/-- Decomposing reachability of a cycle into the first edge taken. -/
theorem reachesCycle_step {g : PatternFlow} {x : String} (h : g.ReachesCycle x) :
    ∃ n rid, Dict.get g.nodes x = some n ∧ some rid ∈ n.refs ∧ g.ReachesCycle rid := by
  obtain ⟨a, hxa, haa⟩ := h
  rcases hxa with rfl | hsteps
  · obtain ⟨b, hab, hba⟩ := Relation.TransGen.head'_iff.mp haa
    obtain ⟨n, hn, hbn⟩ := hab
    refine ⟨n, b, hn, hbn, x, ?_, haa⟩
    rcases Relation.reflTransGen_iff_eq_or_transGen.mp hba with hf | hb
    · exact Or.inl hf.symm
    · exact Or.inr hb
  · obtain ⟨b, hxb, hba⟩ := Relation.TransGen.head'_iff.mp hsteps
    obtain ⟨n, hn, hbn⟩ := hxb
    refine ⟨n, b, hn, hbn, a, ?_, haa⟩
    rcases Relation.reflTransGen_iff_eq_or_transGen.mp hba with hf | hb
    · exact Or.inl hf.symm
    · exact Or.inr hb

/-- Specification of the reference loop of the search, parametrized over
the recursive step: provided every processed reference satisfies the
step specification, the loop result is sound (a `True` result exhibits a
cycle) and complete (a `False` result certifies every processed child
safe, preserves the visited-set invariant, and only adds nodes reachable
from the children). -/
theorem cycleListWith_spec (g : PatternFlow) (path' : List String)
    (step : String → List String → Bool × List String)
    (refs : List (Option String))
    (hstep : ∀ rid, some rid ∈ refs → ∀ vis, SafeInv g vis path' →
      (vis ⊆ (step rid vis).2) ∧
      ((step rid vis).1 = true → ∃ a, g.Steps a a) ∧
      ((step rid vis).1 = false → SafeInv g (step rid vis).2 path' ∧
        ¬ g.ReachesCycle rid ∧
        (∀ v ∈ (step rid vis).2, v ∈ vis ∨ v = rid ∨ g.Steps rid v))) :
    ∀ vis, SafeInv g vis path' →
      (vis ⊆ (cycleListWith step refs vis).2) ∧
      ((cycleListWith step refs vis).1 = true → ∃ a, g.Steps a a) ∧
      ((cycleListWith step refs vis).1 = false →
        SafeInv g (cycleListWith step refs vis).2 path' ∧
        (∀ rid, some rid ∈ refs → ¬ g.ReachesCycle rid) ∧
        (∀ v ∈ (cycleListWith step refs vis).2, v ∈ vis ∨
          ∃ rid, some rid ∈ refs ∧ (v = rid ∨ g.Steps rid v))) := by
  induction refs with
  | nil =>
    intro vis hinv
    refine ⟨fun v hv => hv, by simp [cycleListWith], ?_⟩
    intro _
    exact ⟨hinv, by simp, fun v hv => Or.inl hv⟩
  | cons ref rest ih =>
    intro vis hinv
    match ref with
    | none =>
      have ih' := ih (fun rid hrid vis' => hstep rid (by simp [hrid]) vis') vis hinv
      simp only [cycleListWith]
      refine ⟨ih'.1, ih'.2.1, ?_⟩
      intro hfalse
      obtain ⟨hsafe, hkids, hreach⟩ := ih'.2.2 hfalse
      refine ⟨hsafe, ?_, ?_⟩
      · intro rid hrid
        rcases List.mem_cons.mp hrid with hc | hc
        · cases hc
        · exact hkids rid hc
      · intro v hv
        rcases hreach v hv with hv' | ⟨rid, hrid, hr⟩
        · exact Or.inl hv'
        · exact Or.inr ⟨rid, List.mem_cons_of_mem _ hrid, hr⟩
    | some rid =>
      have hs := hstep rid (List.mem_cons_self _ _) vis hinv
      rcases hres : step rid vis with ⟨b, vis₁⟩
      rw [hres] at hs
      cases b with
      | true =>
        simp only [cycleListWith, hres]
        exact ⟨hs.1, fun _ => hs.2.1 rfl, by simp⟩
      | false =>
        obtain ⟨hsafe₁, hrc, hreach₁⟩ := hs.2.2 rfl
        have ih' := ih (fun rid' hrid' vis' => hstep rid' (by simp [hrid']) vis') vis₁ hsafe₁
        simp only [cycleListWith, hres]
        refine ⟨fun v hv => ih'.1 (hs.1 hv), ih'.2.1, ?_⟩
        intro hfalse
        obtain ⟨hsafe, hkids, hreach⟩ := ih'.2.2 hfalse
        refine ⟨hsafe, ?_, ?_⟩
        · intro rid' hrid'
          rcases List.mem_cons.mp hrid' with hc | hc
          · cases hc; exact hrc
          · exact hkids rid' hc
        · intro v hv
          rcases hreach v hv with hv' | ⟨rid', hrid', hr⟩
          · rcases hreach₁ v hv' with hv'' | hr'
            · exact Or.inl hv''
            · exact Or.inr ⟨rid, List.mem_cons_self _ _, hr'⟩
          · exact Or.inr ⟨rid', List.mem_cons_of_mem _ hrid', hr⟩

theorem hasCycleFrom_none {g : PatternFlow} {current : String} {path visited : List String}
    (h : Dict.get g.nodes current = none) :
    hasCycleFrom g current path visited = (false, visited) := by
  rw [hasCycleFrom]
  split
  · rfl
  · rename_i node' hnode
    exact absurd (h.symm.trans hnode) (by simp)

theorem hasCycleFrom_mem_path {g : PatternFlow} {current : String} {path visited : List String}
    {node : PatternFlowNode} (h : Dict.get g.nodes current = some node)
    (hp : current ∈ path) :
    hasCycleFrom g current path visited = (true, visited) := by
  rw [hasCycleFrom]
  split
  · rename_i hnode
    exact absurd (h.symm.trans hnode) (by simp)
  · rename_i node' hnode
    simp [hp]

theorem hasCycleFrom_mem_visited {g : PatternFlow} {current : String} {path visited : List String}
    {node : PatternFlowNode} (h : Dict.get g.nodes current = some node)
    (hp : current ∉ path) (hv : current ∈ visited) :
    hasCycleFrom g current path visited = (false, visited) := by
  rw [hasCycleFrom]
  split
  · rename_i hnode
    exact absurd (h.symm.trans hnode) (by simp)
  · rename_i node' hnode
    simp [hp, hv]

theorem hasCycleFrom_main {g : PatternFlow} {current : String} {path visited : List String}
    {node : PatternFlowNode} (h : Dict.get g.nodes current = some node)
    (hp : current ∉ path) (hv : current ∉ visited) :
    hasCycleFrom g current path visited =
      cycleListWith (fun rid vis => hasCycleFrom g rid (current :: path) vis)
        node.refs (current :: visited) := by
  rw [hasCycleFrom]
  split
  · rename_i hnode
    exact absurd (h.symm.trans hnode) (by simp)
  · rename_i node' hnode
    have hn : node = node' := by
      have := h.symm.trans hnode
      injection this
    subst hn
    simp [hp, hv]

/-- Postcondition of one `_has_cycle_from` call: the visited set only
grows, a `True` result certifies a cycle somewhere in the graph, and a
`False` result preserves the visited-set invariant, certifies the start
node unable to reach any cycle, records it as visited (when it exists),
and only adds nodes reachable from it. -/
def HCFPost (g : PatternFlow) (current : String) (path visited : List String) : Prop :=
  (visited ⊆ (hasCycleFrom g current path visited).2) ∧
  ((hasCycleFrom g current path visited).1 = true → ∃ a, g.Steps a a) ∧
  ((hasCycleFrom g current path visited).1 = false →
    SafeInv g (hasCycleFrom g current path visited).2 path ∧
    ¬ g.ReachesCycle current ∧
    (Dict.get g.nodes current = none ∨ current ∈ (hasCycleFrom g current path visited).2) ∧
    (∀ v ∈ (hasCycleFrom g current path visited).2,
      v ∈ visited ∨ v = current ∨ g.Steps current v))

theorem hasCycleFrom_spec (g : PatternFlow) :
    ∀ current path visited, PathChain g current path → SafeInv g visited path →
      HCFPost g current path visited := by
  suffices h : ∀ N current path visited,
      (((Dict.keys g.nodes).filter fun x => decide (x ∉ path)).length ≤ N) →
      PathChain g current path → SafeInv g visited path →
      HCFPost g current path visited by
    intro current path visited
    exact h _ current path visited le_rfl
  intro N
  induction N using Nat.strong_induction_on with
  | _ N IH =>
  intro current path visited hm hchain hinv
  rcases hget : Dict.get g.nodes current with _ | node
  · rw [HCFPost, hasCycleFrom_none hget]
    refine ⟨fun v hv => hv, by simp, ?_⟩
    intro _
    refine ⟨hinv, ?_, Or.inl hget, fun v hv => Or.inl hv⟩
    intro hrc
    obtain ⟨n, rid, hn, _, _⟩ := reachesCycle_step hrc
    rw [hget] at hn
    cases hn
  · by_cases hpath : current ∈ path
    · rw [HCFPost, hasCycleFrom_mem_path hget hpath]
      refine ⟨fun v hv => hv, ?_, by simp⟩
      intro _
      exact ⟨current, steps_self_of_mem_path hchain hpath⟩
    · by_cases hvis : current ∈ visited
      · rw [HCFPost, hasCycleFrom_mem_visited hget hpath hvis]
        refine ⟨fun v hv => hv, by simp, ?_⟩
        intro _
        exact ⟨hinv, hinv current hvis hpath, Or.inr hvis, fun v hv => Or.inl hv⟩
      · rw [HCFPost, hasCycleFrom_main hget hpath hvis]
        have hinv' : SafeInv g (current :: visited) (current :: path) := by
          intro v hv hvp
          rcases List.mem_cons.mp hv with rfl | hv'
          · exact absurd (List.mem_cons_self _ _) hvp
          · exact hinv v hv' fun hc => hvp (List.mem_cons_of_mem _ hc)
        have hloop := cycleListWith_spec g (current :: path)
          (fun rid vis => hasCycleFrom g rid (current :: path) vis) node.refs
          ?_ (current :: visited) hinv'
        · rcases hloop with ⟨hsub, htrue, hfalse⟩
          refine ⟨fun v hv => hsub (List.mem_cons_of_mem _ hv), htrue, ?_⟩
          intro hf
          obtain ⟨hsafe, hkids, hreach⟩ := hfalse hf
          have hnorc : ¬ g.ReachesCycle current := by
            intro hrc
            obtain ⟨n, rid, hn, hridmem, hrc'⟩ := reachesCycle_step hrc
            rw [hget] at hn
            injection hn with hn
            subst hn
            exact hkids rid hridmem hrc'
          refine ⟨?_, hnorc, Or.inr (hsub (List.mem_cons_self _ _)), ?_⟩
          · intro v hv hvp
            by_cases hvc : v = current
            · exact hvc ▸ hnorc
            · refine hsafe v hv ?_
              intro hc
              rcases List.mem_cons.mp hc with hc' | hc'
              · exact hvc hc'
              · exact hvp hc'
          · intro v hv
            rcases hreach v hv with hv' | ⟨rid, hrid, hr⟩
            · rcases List.mem_cons.mp hv' with rfl | hv''
              · exact Or.inr (Or.inl rfl)
              · exact Or.inl hv''
            · have hedge : g.Ref current rid := ⟨node, hget, hrid⟩
              rcases hr with rfl | hr'
              · exact Or.inr (Or.inr (Relation.TransGen.single hedge))
              · exact Or.inr (Or.inr (Relation.TransGen.head hedge hr'))
        · intro rid hrid vis hvinv
          have hchain' : PathChain g rid (current :: path) :=
            PathChain.cons rid current path ⟨node, hget, hrid⟩ hchain
          have hmlt : (((Dict.keys g.nodes).filter
              fun x => decide (x ∉ current :: path)).length) <
              (((Dict.keys g.nodes).filter fun x => decide (x ∉ path)).length) := by
            refine length_filter_lt_length_filter _ _ _ ?_ current
              (Dict.mem_keys_of_get hget) ?_ ?_
            · intro x hx
              simp only [decide_eq_true_eq] at hx ⊢
              exact fun hxp => hx (List.mem_cons_of_mem _ hxp)
            · simp
            · simpa using hpath
          have hN : (((Dict.keys g.nodes).filter
              fun x => decide (x ∉ current :: path)).length) < N :=
            Nat.lt_of_lt_of_le hmlt hm
          have hthis := IH _ hN rid (current :: path) vis le_rfl hchain' hvinv
          rw [HCFPost] at hthis
          obtain ⟨h1, h2, h3⟩ := hthis
          refine ⟨h1, h2, ?_⟩
          intro hf
          obtain ⟨ha, hb, _, hd⟩ := h3 hf
          exact ⟨ha, hb, hd⟩

theorem hasCycleStart_true_spec {g : PatternFlow} {id : String}
    (h : g.hasCycleStart id = true) : ∃ a, g.Steps a a := by
  have hspec := hasCycleFrom_spec g id [] [] (PathChain.nil id) (by intro v hv; cases hv)
  rw [HCFPost] at hspec
  exact hspec.2.1 h

theorem hasCycleStart_false_spec {g : PatternFlow} {id : String}
    (h : g.hasCycleStart id = false) : ¬ g.ReachesCycle id := by
  have hspec := hasCycleFrom_spec g id [] [] (PathChain.nil id) (by intro v hv; cases hv)
  rw [HCFPost] at hspec
  exact (hspec.2.2 h).2.1

theorem hasCycleAll_spec (g : PatternFlow) :
    ∀ ks visited, SafeInv g visited [] →
      (hasCycleAll g ks visited = true → ∃ a, g.Steps a a) ∧
      (hasCycleAll g ks visited = false → ∀ k ∈ ks, ¬ g.ReachesCycle k) := by
  intro ks
  induction ks with
  | nil =>
    intro visited hinv
    exact ⟨by simp [hasCycleAll], fun _ k hk => absurd hk (List.not_mem_nil k)⟩
  | cons k rest ih =>
    intro visited hinv
    by_cases hkv : k ∈ visited
    · have ih' := ih visited hinv
      constructor
      · intro ht
        rw [hasCycleAll, if_pos hkv] at ht
        exact ih'.1 ht
      · intro hf k' hk'
        rw [hasCycleAll, if_pos hkv] at hf
        rcases List.mem_cons.mp hk' with rfl | hk''
        · exact hinv k' hkv (List.not_mem_nil k')
        · exact ih'.2 hf k' hk''
    · have hspec := hasCycleFrom_spec g k [] visited (PathChain.nil k) hinv
      rw [HCFPost] at hspec
      rcases hres : hasCycleFrom g k [] visited with ⟨b, vis'⟩
      rw [hres] at hspec
      cases b with
      | true =>
        constructor
        · intro _
          exact hspec.2.1 rfl
        · intro hf
          rw [hasCycleAll, if_neg hkv, hres] at hf
          cases hf
      | false =>
        obtain ⟨hsafe, hnorc, _, _⟩ := hspec.2.2 rfl
        have ih' := ih vis' hsafe
        constructor
        · intro ht
          rw [hasCycleAll, if_neg hkv, hres] at ht
          exact ih'.1 ht
        · intro hf k' hk'
          rw [hasCycleAll, if_neg hkv, hres] at hf
          rcases List.mem_cons.mp hk' with rfl | hk''
          · exact hnorc
          · exact ih'.2 hf k' hk''

theorem hasCycle_true_spec {g : PatternFlow} (h : g.hasCycle = true) :
    ∃ a, g.Steps a a :=
  (hasCycleAll_spec g (Dict.keys g.nodes) [] (by intro v hv; cases hv)).1 h

theorem hasCycle_false_spec {g : PatternFlow} (h : g.hasCycle = false) : g.Acyclic := by
  intro a ha
  obtain ⟨b, hab, _⟩ := Relation.TransGen.head'_iff.mp ha
  obtain ⟨n, hn, _⟩ := hab
  exact (hasCycleAll_spec g (Dict.keys g.nodes) [] (by intro v hv; cases hv)).2 h a
    (Dict.mem_keys_of_get hn) ⟨a, Or.inl rfl, ha⟩

theorem hasCycle_iff_spec (g : PatternFlow) :
    g.hasCycle = true ↔ ∃ a, g.Steps a a := by
  constructor
  · exact hasCycle_true_spec
  · intro ⟨a, ha⟩
    cases h : g.hasCycle with
    | true => rfl
    | false => exact absurd ha (hasCycle_false_spec h a)

theorem ref_congr {g g' : PatternFlow} (h : g.nodes = g'.nodes) {a b : String} :
    g.Ref a b ↔ g'.Ref a b := by
  unfold PatternFlow.Ref
  rw [h]

theorem steps_congr {g g' : PatternFlow} (h : g.nodes = g'.nodes) {a b : String} :
    g.Steps a b ↔ g'.Steps a b := by
  constructor
  · exact Relation.TransGen.mono fun x y hx => (ref_congr h).mp hx
  · exact Relation.TransGen.mono fun x y hx => (ref_congr h).mpr hx

theorem acyclic_congr {g g' : PatternFlow} (h : g.nodes = g'.nodes) :
    g.Acyclic ↔ g'.Acyclic := by
  unfold PatternFlow.Acyclic
  exact forall_congr' fun a => not_congr (steps_congr h)

theorem reachesCycle_congr {g g' : PatternFlow} (h : g.nodes = g'.nodes) {x : String} :
    g.ReachesCycle x ↔ g'.ReachesCycle x := by
  unfold PatternFlow.ReachesCycle
  refine exists_congr fun a => and_congr (or_congr Iff.rfl (steps_congr h)) (steps_congr h)

/-- Any walk in a graph with one replaced node either avoids the replaced
node as an edge source (and so is a walk of the original graph), or takes
a last edge out of the replaced node, before which it reached the
replaced node through original edges. -/
theorem steps_replace {g g₁ : PatternFlow} {id : String}
    (href : ∀ s t, s ≠ id → g₁.Ref s t → g.Ref s t) :
    ∀ x y, g₁.Steps x y →
      g.Steps x y ∨
      ∃ w, g₁.Ref id w ∧ Relation.ReflTransGen g₁.Ref w y ∧ (x = id ∨ g.Steps x id) := by
  intro x y h
  induction h with
  | single hxy =>
    rename_i b
    by_cases hx : x = id
    · subst hx
      exact Or.inr ⟨b, hxy, Relation.ReflTransGen.refl, Or.inl rfl⟩
    · exact Or.inl (Relation.TransGen.single (href x b hx hxy))
  | tail hxb hby ih =>
    rename_i b c
    rcases ih with hg | ⟨w, hw, hrtg, hcarry⟩
    · by_cases hb : b = id
      · subst hb
        exact Or.inr ⟨c, hby, Relation.ReflTransGen.refl, Or.inr hg⟩
      · exact Or.inl (Relation.TransGen.tail hg (href b c hb hby))
    · exact Or.inr ⟨w, hw, Relation.ReflTransGen.tail hrtg hby, hcarry⟩

/-- A graph whose edges differ from an acyclic graph only at one node
stays acyclic provided no cycle is reachable from that node. -/
theorem acyclic_of_replace {g g₁ : PatternFlow} {id : String}
    (href : ∀ s t, s ≠ id → g₁.Ref s t → g.Ref s t)
    (hacyc : g.Acyclic) (hsafe : ¬ g₁.ReachesCycle id) : g₁.Acyclic := by
  intro a ha
  rcases steps_replace href a a ha with hg | ⟨w, hw, hrtg, _⟩
  · exact hacyc a hg
  · exact hsafe ⟨a, Or.inr (Relation.TransGen.head' hw hrtg), ha⟩

/-- A graph whose edges differ from an acyclic graph only at one node
stays acyclic provided nothing points at that node in either graph. -/
theorem acyclic_of_fresh {g g₁ : PatternFlow} {newId : String}
    (href : ∀ s t, s ≠ newId → g₁.Ref s t → g.Ref s t)
    (hacyc : g.Acyclic)
    (hnoing : ∀ z, ¬ g.Ref z newId)
    (hnoin₁ : ∀ z, ¬ g₁.Ref z newId) : g₁.Acyclic := by
  intro a ha
  rcases steps_replace href a a ha with hg | ⟨w, hw, hrtg, hcarry⟩
  · exact hacyc a hg
  · rcases hcarry with rfl | hsteps
    · obtain ⟨b, _, hb⟩ := Relation.TransGen.tail'_iff.mp ha
      exact hnoin₁ b hb
    · obtain ⟨b, _, hb⟩ := Relation.TransGen.tail'_iff.mp hsteps
      exact hnoing b hb

/-- A subgraph of an acyclic graph is acyclic. -/
theorem acyclic_of_subrel {g g' : PatternFlow}
    (href : ∀ s t, g'.Ref s t → g.Ref s t) (hacyc : g.Acyclic) : g'.Acyclic := by
  intro a ha
  exact hacyc a (Relation.TransGen.mono href ha)

theorem update_err_missing {g : PatternFlow} {id : String} {node : PatternFlowNode}
    (h : Dict.get g.nodes id = none) :
    g.update id node = some (.error (.keyError id), g) := by
  unfold PatternFlow.update
  rw [h]

theorem update_cycle_rollback {g : PatternFlow} {id : String} {node oldNode : PatternFlowNode}
    (hget : Dict.get g.nodes id = some oldNode)
    (hcyc : PatternFlow.hasCycleStart { g with nodes := Dict.set g.nodes id node } id = true) :
    g.update id node = some (.error (.valueError id), g) := by
  unfold PatternFlow.update
  rw [hget]
  simp only [hcyc, if_true]
  rw [Dict.set_set_cancel g.nodes id oldNode node hget]

theorem update_ok_shape {g : PatternFlow} {id : String} {node : PatternFlowNode}
    {p : Option Pattern} {g' : PatternFlow}
    (h : g.update id node = some (.ok p, g')) :
    g'.nodes = Dict.set g.nodes id node ∧
    PatternFlow.hasCycleStart { g with nodes := Dict.set g.nodes id node } id = false := by
  unfold PatternFlow.update at h
  split at h
  · exact absurd h (by simp)
  · rename_i oldNode hget
    simp only at h
    cases hcyc : PatternFlow.hasCycleStart
        { nodes := Dict.set g.nodes id node, outputs := g.outputs, cache := g.cache } id with
    | true =>
      rw [hcyc] at h
      simp at h
    | false =>
      rw [hcyc] at h
      simp only [Bool.false_eq_true, if_false] at h
      refine ⟨?_, rfl⟩
      split at h
      · exact absurd h (by simp)
      · split at h
        · exact absurd h (by simp)
        · split at h
          · exact absurd h (by simp)
          · exact absurd h (by simp)
          · split at h
            · exact absurd h (by simp)
            · simp only [Option.some.injEq, Prod.mk.injEq] at h
              rw [← h.2]

theorem firstBadRef_none_spec {nodes : List (String × PatternFlowNode)}
    {refs : List (Option String)} (h : firstBadRef nodes refs = none) :
    ∀ r, some r ∈ refs → ∃ n, Dict.get nodes r = some n := by
  induction refs with
  | nil => intro r hr; cases hr
  | cons ref rest ih =>
    intro r hr
    match ref with
    | none =>
      rw [firstBadRef] at h
      rcases List.mem_cons.mp hr with hc | hc
      · cases hc
      · exact ih h r hc
    | some r' =>
      rw [firstBadRef] at h
      by_cases hr' : (Dict.get nodes r').isSome
      · rw [if_pos hr'] at h
        rcases List.mem_cons.mp hr with hc | hc
        · injection hc with hc
          subst hc
          exact Option.isSome_iff_exists.mp hr'
        · exact ih h r hc
      · rw [if_neg hr'] at h
        cases h

theorem create_ok_shape {g : PatternFlow} {newId : String} {node : PatternFlowNode}
    {r : String} {g' : PatternFlow}
    (h : g.create newId node = (.ok r, g')) :
    firstBadRef g.nodes node.refs = none ∧
    g'.nodes = Dict.set g.nodes newId node ∧ g'.cache = g.cache := by
  unfold PatternFlow.create at h
  split at h
  · exact absurd h (by simp)
  · rename_i hbad
    simp only at h
    refine ⟨hbad, ?_⟩
    split at h
    · exact absurd h (by simp)
    · simp only [Prod.mk.injEq, Except.ok.injEq] at h
      rw [← h.2]
      exact ⟨rfl, rfl⟩

theorem delete_err_missing {g : PatternFlow} {id : String}
    (h : Dict.get g.nodes id = none) :
    g.delete id = some (.error (.keyError id), g) := by
  unfold PatternFlow.delete
  rw [h]

theorem delete_shape {g : PatternFlow} {id : String} {res : Except Err Unit}
    {g' : PatternFlow} {node : PatternFlowNode}
    (hget : Dict.get g.nodes id = some node)
    (h : g.delete id = some (res, g')) :
    (g'.nodes = g.nodes ∧ res ≠ .ok ()) ∨ g'.nodes = Dict.erase g.nodes id := by
  unfold PatternFlow.delete at h
  rw [hget] at h
  simp only at h
  split at h
  · simp only [Option.some.injEq, Prod.mk.injEq] at h
    exact Or.inl ⟨by rw [← h.2], by rw [← h.1]; simp⟩
  · split at h
    · cases h
    · simp only [Option.some.injEq, Prod.mk.injEq] at h
      exact Or.inr (by rw [← h.2])
    · simp only [Option.some.injEq, Prod.mk.injEq] at h
      exact Or.inr (by rw [← h.2])

theorem synthOp_state {g : PatternFlow} {id : String} {force : Bool}
    {res : Except Err Pattern} {g' : PatternFlow}
    (h : g.synthOp id force = some (res, g')) :
    g'.nodes = g.nodes ∧ g'.outputs = g.outputs := by
  unfold PatternFlow.synthOp at h
  rcases hs : synthF g.nodes (g.nodes.length + 1) g.cache id force with _ | ⟨r, c⟩
  · rw [hs] at h
    cases h
  · rw [hs] at h
    simp only [Option.map, Option.some.injEq, Prod.mk.injEq] at h
    rw [← h.2]
    exact ⟨rfl, rfl⟩

theorem populateOp_state {g : PatternFlow} {id : String}
    {res : Except Err Unit} {g' : PatternFlow}
    (h : g.populateOp id = some (res, g')) :
    g'.nodes = g.nodes ∧ g'.outputs = g.outputs := by
  unfold PatternFlow.populateOp at h
  rcases hs : populateF g.nodes g.outputs (g.nodes.length + 1) g.cache id with _ | ⟨r, c⟩
  · rw [hs] at h
    cases h
  · rw [hs] at h
    simp only [Option.map, Option.some.injEq, Prod.mk.injEq] at h
    rw [← h.2]
    exact ⟨rfl, rfl⟩

theorem make_ok_shape {ns : List (String × PatternFlowNode)} {g : PatternFlow}
    (h : PatternFlow.make ns = .ok g) :
    g.nodes = ns ∧ g.hasCycle = false ∧
    g.cache = ns.map (fun p => (p.1, (none : Option Pattern))) := by
  unfold PatternFlow.make at h
  split at h
  · cases h
  · rename_i outs houts
    simp only at h
    cases hcyc : PatternFlow.hasCycle
        ⟨ns, outs, ns.map fun p => (p.1, (none : Option Pattern))⟩ with
    | true =>
      rw [hcyc] at h
      simp at h
    | false =>
      rw [hcyc] at h
      simp only [Bool.false_eq_true, if_false] at h
      split at h
      · cases h
      · injection h with h
        rw [← h]
        exact ⟨rfl, hcyc, rfl⟩

theorem make_acyclic {ns : List (String × PatternFlowNode)} {g : PatternFlow}
    (h : PatternFlow.make ns = .ok g) : g.Acyclic :=
  hasCycle_false_spec (make_ok_shape h).2.1

theorem create_acyclic {g : PatternFlow} {newId : String} {node : PatternFlowNode}
    {r : String} {g' : PatternFlow}
    (hfresh : newId ∉ Dict.keys g.nodes)
    (hunref : ∀ k n, Dict.get g.nodes k = some n → some newId ∉ n.refs)
    (hacyc : g.Acyclic)
    (h : g.create newId node = (.ok r, g')) : g'.Acyclic := by
  obtain ⟨hbad, hnodes, _⟩ := create_ok_shape h
  refine @acyclic_of_fresh g g' newId ?_ hacyc ?_ ?_
  · intro s t hs href
    obtain ⟨n, hn, hmem⟩ := href
    rw [hnodes, Dict.get_set_ne g.nodes newId s node hs] at hn
    exact ⟨n, hn, hmem⟩
  · intro z href
    obtain ⟨n, hn, hmem⟩ := href
    exact hunref z n hn hmem
  · intro z href
    obtain ⟨n, hn, hmem⟩ := href
    by_cases hz : z = newId
    · rw [hz] at hn
      rw [hnodes, Dict.get_set_self] at hn
      injection hn with hn
      subst hn
      obtain ⟨n', hn'⟩ := firstBadRef_none_spec hbad newId hmem
      rw [Dict.get_of_not_mem_keys hfresh] at hn'
      cases hn'
    · rw [hnodes, Dict.get_set_ne g.nodes newId z node hz] at hn
      exact hunref z n hn hmem

theorem update_acyclic {g : PatternFlow} {id : String} {node : PatternFlowNode}
    {p : Option Pattern} {g' : PatternFlow}
    (hacyc : g.Acyclic) (h : g.update id node = some (.ok p, g')) : g'.Acyclic := by
  obtain ⟨hnodes, hcyc⟩ := update_ok_shape h
  have hsafe := hasCycleStart_false_spec hcyc
  have hsafe' : ¬ g'.ReachesCycle id := by
    rw [← @reachesCycle_congr { g with nodes := Dict.set g.nodes id node } g' (by rw [hnodes]) id]
    exact hsafe
  refine acyclic_of_replace ?_ hacyc hsafe'
  intro s t hs href
  obtain ⟨n, hn, hmem⟩ := href
  rw [hnodes, Dict.get_set_ne g.nodes id s node hs] at hn
  exact ⟨n, hn, hmem⟩

theorem delete_acyclic {g : PatternFlow} {id : String} {g' : PatternFlow}
    (hacyc : g.Acyclic) (h : g.delete id = some (.ok (), g')) : g'.Acyclic := by
  rcases hget : Dict.get g.nodes id with _ | node
  · rw [delete_err_missing hget] at h
    simp at h
  · rcases delete_shape hget h with ⟨_, hne⟩ | hnodes
    · exact absurd rfl hne
    · refine acyclic_of_subrel ?_ hacyc
      intro s t href
      obtain ⟨n, hn, hmem⟩ := href
      rw [hnodes] at hn
      by_cases hs : s = id
      · subst hs
        rw [Dict.get_erase_self] at hn
        cases hn
      · rw [Dict.get_erase_ne g.nodes id s hs] at hn
        exact ⟨n, hn, hmem⟩

/-- The graphs obtainable from a successful construction followed by any
sequence of successfully completed public operations.  The two side
conditions of `createStep` embed the identifier contract of `uuid4()`
(spec section 6: identifiers are unique and never reused): a freshly
generated id collides neither with an existing node id nor with any id
mentioned by an existing node. -/
inductive ReachableState : PatternFlow → Prop
  | made (ns : List (String × PatternFlowNode)) (g : PatternFlow) :
      PatternFlow.make ns = .ok g → ReachableState g
  | createStep (g : PatternFlow) (newId : String) (node : PatternFlowNode)
      (r : String) (g' : PatternFlow) : ReachableState g →
      newId ∉ Dict.keys g.nodes →
      (∀ k n, Dict.get g.nodes k = some n → some newId ∉ n.refs) →
      g.create newId node = (.ok r, g') → ReachableState g'
  | updateStep (g : PatternFlow) (id : String) (node : PatternFlowNode)
      (p : Option Pattern) (g' : PatternFlow) : ReachableState g →
      g.update id node = some (.ok p, g') → ReachableState g'
  | deleteStep (g : PatternFlow) (id : String) (g' : PatternFlow) : ReachableState g →
      g.delete id = some (.ok (), g') → ReachableState g'
  | synthStep (g : PatternFlow) (id : String) (force : Bool) (res : Pattern)
      (g' : PatternFlow) : ReachableState g →
      g.synthOp id force = some (.ok res, g') → ReachableState g'
  | populateStep (g : PatternFlow) (id : String) (g' : PatternFlow) : ReachableState g →
      g.populateOp id = some (.ok (), g') → ReachableState g'

/-- C1: every graph produced by a successful construction followed by any
sequence of successfully completed public operations (create, update,
delete, synth, populate) is acyclic: following `inputs`/`kwinputs`
reference edges never returns to a node already seen — in particular
`update` preserves acyclicity even though it runs the cycle check only
from the updated node id. -/
theorem C1_reachable_graphs_acyclic :
    ∀ g : PatternFlow, ReachableState g → g.Acyclic := by
  intro g h
  induction h with
  | made ns g hmk => exact make_acyclic hmk
  | createStep g newId node r g' hre hfresh hunref hok ih =>
    exact create_acyclic hfresh hunref ih hok
  | updateStep g id node p g' hre hok ih => exact update_acyclic ih hok
  | deleteStep g id g' hre hok ih => exact delete_acyclic ih hok
  | synthStep g id force res g' hre hok ih =>
    exact (acyclic_congr (synthOp_state hok).1.symm).mp ih
  | populateStep g id g' hre hok ih =>
    exact (acyclic_congr (populateOp_state hok).1.symm).mp ih

theorem cycleListWith_visits (g : PatternFlow)
    (step : String → List String → Bool × List String)
    (refs : List (Option String))
    (hstep : ∀ rid, some rid ∈ refs → ∀ vis, ∀ v ∈ (step rid vis).2,
      v ∈ vis ∨ v = rid ∨ g.Steps rid v) :
    ∀ vis, ∀ v ∈ (cycleListWith step refs vis).2,
      v ∈ vis ∨ ∃ rid, some rid ∈ refs ∧ (v = rid ∨ g.Steps rid v) := by
  induction refs with
  | nil => intro vis v hv; exact Or.inl hv
  | cons ref rest ih =>
    intro vis v hv
    match ref with
    | none =>
      rw [cycleListWith] at hv
      rcases ih (fun rid hrid => hstep rid (by simp [hrid])) vis v hv with h | ⟨rid, hrid, hr⟩
      · exact Or.inl h
      · exact Or.inr ⟨rid, List.mem_cons_of_mem _ hrid, hr⟩
    | some rid =>
      rw [cycleListWith] at hv
      rcases hres : step rid vis with ⟨b, vis₁⟩
      rw [hres] at hv
      cases b with
      | true =>
        simp only at hv
        rcases hstep rid (List.mem_cons_self _ _) vis v (by rw [hres]; exact hv) with h | hr
        · exact Or.inl h
        · exact Or.inr ⟨rid, List.mem_cons_self _ _, hr⟩
      | false =>
        simp only at hv
        rcases ih (fun rid' hrid' => hstep rid' (by simp [hrid'])) vis₁ v hv with h | ⟨rid', hrid', hr⟩
        · rcases hstep rid (List.mem_cons_self _ _) vis v (by rw [hres]; exact h) with h' | hr'
          · exact Or.inl h'
          · exact Or.inr ⟨rid, List.mem_cons_self _ _, hr'⟩
        · exact Or.inr ⟨rid', List.mem_cons_of_mem _ hrid', hr⟩

/-- The search walks only nodes reachable from its start: every node it
adds to the visited set is the current node or a node it steps to. -/
theorem hasCycleFrom_visits (g : PatternFlow) :
    ∀ current path visited, ∀ v ∈ (hasCycleFrom g current path visited).2,
      v ∈ visited ∨ v = current ∨ g.Steps current v := by
  suffices h : ∀ N current path visited,
      (((Dict.keys g.nodes).filter fun x => decide (x ∉ path)).length ≤ N) →
      ∀ v ∈ (hasCycleFrom g current path visited).2,
        v ∈ visited ∨ v = current ∨ g.Steps current v by
    intro current path visited
    exact h _ current path visited le_rfl
  intro N
  induction N using Nat.strong_induction_on with
  | _ N IH =>
  intro current path visited hm v hv
  rcases hget : Dict.get g.nodes current with _ | node
  · rw [hasCycleFrom_none hget] at hv
    exact Or.inl hv
  · by_cases hpath : current ∈ path
    · rw [hasCycleFrom_mem_path hget hpath] at hv
      exact Or.inl hv
    · by_cases hvis : current ∈ visited
      · rw [hasCycleFrom_mem_visited hget hpath hvis] at hv
        exact Or.inl hv
      · rw [hasCycleFrom_main hget hpath hvis] at hv
        have hloop := cycleListWith_visits g
          (fun rid vis => hasCycleFrom g rid (current :: path) vis) node.refs
          ?_ (current :: visited) v hv
        · rcases hloop with hv' | ⟨rid, hrid, hr⟩
          · rcases List.mem_cons.mp hv' with rfl | hv''
            · exact Or.inr (Or.inl rfl)
            · exact Or.inl hv''
          · have hedge : g.Ref current rid := ⟨node, hget, hrid⟩
            rcases hr with rfl | hr'
            · exact Or.inr (Or.inr (Relation.TransGen.single hedge))
            · exact Or.inr (Or.inr (Relation.TransGen.head hedge hr'))
        · intro rid hrid vis v' hv'
          have hmlt : (((Dict.keys g.nodes).filter
              fun x => decide (x ∉ current :: path)).length) <
              (((Dict.keys g.nodes).filter fun x => decide (x ∉ path)).length) := by
            refine length_filter_lt_length_filter _ _ _ ?_ current
              (Dict.mem_keys_of_get hget) ?_ ?_
            · intro x hx
              simp only [decide_eq_true_eq] at hx ⊢
              exact fun hxp => hx (List.mem_cons_of_mem _ hxp)
            · simp
            · simpa using hpath
          exact IH _ (Nat.lt_of_lt_of_le hmlt hm) rid (current :: path) vis le_rfl v' hv'

/-- A failed cycle check during `update` rolls the node back in place and
raises, leaving the state exactly as before the call. -/
theorem update_rollback_of_cycle (g : PatternFlow) (id : String)
    (node oldNode : PatternFlowNode)
    (hacyc : g.Acyclic)
    (hget : Dict.get g.nodes id = some oldNode)
    (hcyc : ¬ PatternFlow.Acyclic { g with nodes := Dict.set g.nodes id node }) :
    g.update id node = some (.error (.valueError id), g) := by
  have htrue : PatternFlow.hasCycleStart
      { g with nodes := Dict.set g.nodes id node } id = true := by
    cases hres : PatternFlow.hasCycleStart
        { g with nodes := Dict.set g.nodes id node } id with
    | true => rfl
    | false =>
      exfalso
      apply hcyc
      refine acyclic_of_replace ?_ hacyc (hasCycleStart_false_spec hres)
      intro s t hs href
      obtain ⟨n, hn, hmem⟩ := href
      rw [Dict.get_set_ne g.nodes id s node hs] at hn
      exact ⟨n, hn, hmem⟩
  exact update_cycle_rollback hget htrue

/-- C3: for every graph satisfying the acyclicity invariant and every
existing node id, if `update(id, node)` would introduce a cycle (the
graph with the node replaced is no longer acyclic), the operation fails
with `CycleError` (Python `ValueError`) and returns the state exactly as
it was before the call — nodes, reverse-edge index and caches included. -/
theorem C3_update_cycle_error_rollback (g : PatternFlow) (id : String)
    (node oldNode : PatternFlowNode)
    (hacyc : g.Acyclic)
    (hget : Dict.get g.nodes id = some oldNode)
    (hcyc : ¬ PatternFlow.Acyclic { g with nodes := Dict.set g.nodes id node }) :
    g.update id node = some (.error (.valueError id), g) :=
  update_rollback_of_cycle g id node oldNode hacyc hget hcyc

/-- C4: the whole-graph `has_cycle()` returns true exactly when some node
can reach a node already on the current reference path (the graph has a
reference cycle); a node already in the global visited set and not on
the current path is never re-walked (the search returns immediately and
leaves the visited set unchanged); a reference to a nonexistent node id
contributes no cycle at that edge; and `has_cycle(start)` walks only
nodes reachable from `start`. -/
theorem C4_has_cycle_correct (g : PatternFlow) :
    (g.hasCycle = true ↔ ∃ a, g.Steps a a) ∧
    (∀ current path visited, current ∈ visited → current ∉ path →
      hasCycleFrom g current path visited = (false, visited)) ∧
    (∀ current path visited, Dict.get g.nodes current = none →
      hasCycleFrom g current path visited = (false, visited)) ∧
    (∀ start v, v ∈ (hasCycleFrom g start [] []).2 → v = start ∨ g.Steps start v) := by
  refine ⟨hasCycle_iff_spec g, ?_, ?_, ?_⟩
  · intro current path visited hv hp
    rcases hget : Dict.get g.nodes current with _ | node
    · exact hasCycleFrom_none hget
    · exact hasCycleFrom_mem_visited hget hp hv
  · intro current path visited hget
    exact hasCycleFrom_none hget
  · intro start v hv
    rcases hasCycleFrom_visits g start [] [] v hv with h | h
    · cases h
    · exact h

namespace Dict

theorem isSome_get_of_mem_keys {α : Type} {l : List (String × α)} {k : String}
    (h : k ∈ keys l) : (get l k).isSome := by
  induction l with
  | nil => cases h
  | cons p rest ih =>
    obtain ⟨ka, va⟩ := p
    by_cases hk : ka = k
    · simp [get, hk]
    · simp only [keys, List.map_cons, List.mem_cons] at h
      rcases h with h | h
      · exact absurd h.symm hk
      · simp only [get, hk, if_neg]
        exact ih (by simpa [keys] using h)

theorem keys_set_of_get {α : Type} {l : List (String × α)} {k : String} {v' : α}
    (h : get l k = some v') (v : α) : keys (set l k v) = keys l := by
  induction l with
  | nil => simp [get] at h
  | cons p rest ih =>
    obtain ⟨ka, va⟩ := p
    by_cases hk : ka = k
    · subst hk
      simp [set, keys]
    · simp only [get, hk, if_neg] at h
      simp [set, hk, keys] at ih ⊢
      exact ih h

end Dict

theorem setAdd_keys {outs : List (String × List String)} {k v : String}
    {outs' : List (String × List String)} (h : setAdd outs k v = .ok outs') :
    Dict.keys outs' = Dict.keys outs := by
  unfold setAdd at h
  split at h
  · cases h
  · rename_i s hs
    injection h with h
    rw [← h]
    exact Dict.keys_set_of_get hs _

theorem setAdd_ok_mem {outs : List (String × List String)} {k v : String}
    {outs' : List (String × List String)} (h : setAdd outs k v = .ok outs') :
    k ∈ Dict.keys outs := by
  unfold setAdd at h
  split at h
  · cases h
  · rename_i s hs
    exact Dict.mem_keys_of_get hs

theorem setAdd_err_shape {outs : List (String × List String)} {k v : String} {e : Err}
    (h : setAdd outs k v = .error e) : e = .keyError k := by
  unfold setAdd at h
  split at h
  · injection h with h
    exact h.symm
  · cases h

theorem setAddAll_ok_spec {refs : List (Option String)} :
    ∀ {outs : List (String × List String)} {m : String} {u : Unit}
      {outs' : List (String × List String)},
      setAddAll outs refs m = (.ok u, outs') →
      Dict.keys outs' = Dict.keys outs ∧ ∀ r, some r ∈ refs → r ∈ Dict.keys outs := by
  induction refs with
  | nil =>
    intro outs m u outs' h
    rw [setAddAll] at h
    injection h with h1 h2
    rw [← h2]
    exact ⟨rfl, fun r hr => absurd hr (List.not_mem_nil _)⟩
  | cons ref rest ih =>
    intro outs m u outs' h
    match ref with
    | none =>
      rw [setAddAll] at h
      obtain ⟨hkeys, hall⟩ := ih h
      refine ⟨hkeys, ?_⟩
      intro r hr
      rcases List.mem_cons.mp hr with hc | hc
      · cases hc
      · exact hall r hc
    | some k =>
      rw [setAddAll] at h
      rcases hadd : setAdd outs k m with e | outs₁
      · rw [hadd] at h
        simp at h
      · rw [hadd] at h
        obtain ⟨hkeys₁, hall⟩ := ih h
        have hkeq := setAdd_keys hadd
        refine ⟨hkeys₁.trans hkeq, ?_⟩
        intro r hr
        rcases List.mem_cons.mp hr with hc | hc
        · injection hc with hc
          subst hc
          exact setAdd_ok_mem hadd
        · rw [← hkeq]
          exact hall r hc

theorem setAddAll_err_shape {refs : List (Option String)} :
    ∀ {outs : List (String × List String)} {m : String} {e : Err}
      {outs' : List (String × List String)},
      setAddAll outs refs m = (.error e, outs') → ∃ r, e = .keyError r := by
  induction refs with
  | nil =>
    intro outs m e outs' h
    rw [setAddAll] at h
    simp at h
  | cons ref rest ih =>
    intro outs m e outs' h
    match ref with
    | none =>
      rw [setAddAll] at h
      exact ih h
    | some k =>
      rw [setAddAll] at h
      rcases hadd : setAdd outs k m with e' | outs₁
      · rw [hadd] at h
        injection h with h1 h2
        injection h1 with h1
        exact ⟨k, by rw [← h1, setAdd_err_shape hadd]⟩
      · rw [hadd] at h
        exact ih h

theorem buildOutputs_ok_spec {rest : List (String × PatternFlowNode)} :
    ∀ {outs outs' : List (String × List String)},
      buildOutputs rest outs = .ok outs' →
      Dict.keys outs' = Dict.keys outs ∧
      ∀ k n, (k, n) ∈ rest → ∀ r, some r ∈ n.refs → r ∈ Dict.keys outs := by
  induction rest with
  | nil =>
    intro outs outs' h
    rw [buildOutputs] at h
    injection h with h
    rw [← h]
    exact ⟨rfl, fun k n hmem => absurd hmem (List.not_mem_nil _)⟩
  | cons p rest ih =>
    obtain ⟨k, n⟩ := p
    intro outs outs' h
    rw [buildOutputs] at h
    rcases hadd : setAddAll outs n.refs k with ⟨ru, outs₁⟩
    rw [hadd] at h
    cases ru with
    | error e => cases h
    | ok u =>
      obtain ⟨hkeys₁, hrefs₁⟩ := setAddAll_ok_spec hadd
      obtain ⟨hkeys, hall⟩ := ih h
      refine ⟨hkeys.trans hkeys₁, ?_⟩
      intro k' n' hmem r hr
      rcases List.mem_cons.mp hmem with hc | hc
      · injection hc with hc1 hc2
        subst hc2
        exact hrefs₁ r hr
      · rw [← hkeys₁]
        exact hall k' n' hc r hr

theorem buildOutputs_err_shape {rest : List (String × PatternFlowNode)} :
    ∀ {outs : List (String × List String)} {e : Err},
      buildOutputs rest outs = .error e → ∃ r, e = .keyError r := by
  induction rest with
  | nil =>
    intro outs e h
    rw [buildOutputs] at h
    cases h
  | cons p rest ih =>
    obtain ⟨k, n⟩ := p
    intro outs e h
    rw [buildOutputs] at h
    rcases hadd : setAddAll outs n.refs k with ⟨ru, outs₁⟩
    rw [hadd] at h
    cases ru with
    | error e' =>
      injection h with h
      exact h ▸ setAddAll_err_shape hadd
    | ok u => exact ih h

theorem make_err_of_buildOutputs {ns : List (String × PatternFlowNode)} {e : Err}
    (h : buildOutputs ns (ns.map fun p => (p.1, [])) = .error e) :
    PatternFlow.make ns = .error e := by
  unfold PatternFlow.make
  rw [h]

theorem make_cyclic_err {ns : List (String × PatternFlowNode)}
    {outs : List (String × List String)}
    (houts : buildOutputs ns (ns.map fun p => (p.1, [])) = .ok outs)
    (hcyc : PatternFlow.hasCycle
      ⟨ns, outs, ns.map fun p => (p.1, (none : Option Pattern))⟩ = true) :
    PatternFlow.make ns = .error (.valueError "") := by
  unfold PatternFlow.make
  rw [houts]
  simp [hcyc]

/-- C7: constructing a graph from an initial id-to-node mapping that
contains a reference cycle always fails, producing an error instead of a
graph; and constructing from a mapping in which some node references a
nonexistent id always fails with `NotFound` (`KeyError`).  Validation is
atomic by the shape of `make`: the result is either a whole graph or an
error, never a partial instance. -/
theorem C7_construction_fails (ns : List (String × PatternFlowNode)) :
    ((∃ a, PatternFlow.Steps ⟨ns, [], []⟩ a a) → ∃ e, PatternFlow.make ns = .error e) ∧
    ((∃ k n r, (k, n) ∈ ns ∧ some r ∈ n.refs ∧ Dict.get ns r = none) →
      ∃ r', PatternFlow.make ns = .error (.keyError r')) := by
  constructor
  · intro ⟨a, ha⟩
    rcases hbo : buildOutputs ns (ns.map fun p => (p.1, [])) with e | outs
    · exact ⟨e, make_err_of_buildOutputs hbo⟩
    · have hsteps : PatternFlow.Steps
          ⟨ns, outs, ns.map fun p => (p.1, (none : Option Pattern))⟩ a a :=
        (@steps_congr ⟨ns, [], []⟩ ⟨ns, outs, ns.map fun p => (p.1, (none : Option Pattern))⟩ rfl a a).mp ha
      exact ⟨.valueError "",
        make_cyclic_err hbo ((hasCycle_iff_spec _).mpr ⟨a, hsteps⟩)⟩
  · intro ⟨k, n, r, hmem, hr, hnone⟩
    rcases hbo : buildOutputs ns (ns.map fun p => (p.1, [])) with e | outs
    · obtain ⟨r', hr'⟩ := buildOutputs_err_shape hbo
      exact ⟨r', by rw [← hr']; exact make_err_of_buildOutputs hbo⟩
    · exfalso
      obtain ⟨_, hall⟩ := buildOutputs_ok_spec hbo
      have hrk := hall k n hmem r hr
      have hrkeys : r ∈ Dict.keys ns := by
        simpa [Dict.keys, List.map_map, Function.comp] using hrk
      have hsome := Dict.isSome_get_of_mem_keys hrkeys
      rw [hnone] at hsome
      cases hsome

theorem nodup_subset_length_le {l L : List String} (hnd : l.Nodup)
    (hsub : ∀ x ∈ l, x ∈ L) : l.length ≤ L.length := by
  have h1 : l.toFinset.card = l.length := List.toFinset_card_of_nodup hnd
  have h2 : l.toFinset ⊆ L.toFinset := by
    intro x hx
    rw [List.mem_toFinset] at hx ⊢
    exact hsub x hx
  calc l.length = l.toFinset.card := h1.symm
    _ ≤ L.toFinset.card := Finset.card_le_card h2
    _ ≤ L.length := List.toFinset_card_le L

/-- A chain of successive reference targets starting at a node: the list
records the nodes visited after the start, each reached by one reference
edge from its predecessor.  Chains measure the recursion depth of
`synth`. -/
inductive FChain (g : PatternFlow) : String → List String → Prop
  | nil (x : String) : FChain g x []
  | cons (x y : String) (l : List String) :
      g.Ref x y → FChain g y l → FChain g x (y :: l)

theorem fchain_steps {g : PatternFlow} {x : String} {l : List String}
    (h : FChain g x l) : ∀ y ∈ l, g.Steps x y := by
  induction h with
  | nil => intro y hy; cases hy
  | cons x z l hedge hchain ih =>
    intro y hy
    rcases List.mem_cons.mp hy with rfl | hy'
    · exact Relation.TransGen.single hedge
    · exact Relation.TransGen.head hedge (ih y hy')

theorem fchain_nodup {g : PatternFlow} (hacyc : g.Acyclic) {x : String}
    {l : List String} (h : FChain g x l) : (x :: l).Nodup := by
  induction h with
  | nil => simp
  | cons x y l hedge hchain ih =>
    rw [List.nodup_cons]
    refine ⟨?_, ih⟩
    intro hx
    rcases List.mem_cons.mp hx with rfl | hx'
    · exact hacyc x (Relation.TransGen.single hedge)
    · exact hacyc x (Relation.TransGen.head hedge (fchain_steps hchain x hx'))

theorem fchain_sources_mem {g : PatternFlow} {x : String} {l : List String}
    (h : FChain g x l) : ∀ y ∈ (x :: l).dropLast, y ∈ Dict.keys g.nodes := by
  induction h with
  | nil => intro y hy; cases hy
  | cons x z l hedge hchain ih =>
    intro y hy
    rw [List.dropLast_cons_of_ne_nil (by simp)] at hy
    rcases List.mem_cons.mp hy with rfl | hy'
    · obtain ⟨n, hn, _⟩ := hedge
      exact Dict.mem_keys_of_get hn
    · exact ih y hy'

theorem fchain_length_le {g : PatternFlow} (hacyc : g.Acyclic) {x : String}
    {l : List String} (h : FChain g x l) : l.length ≤ g.nodes.length := by
  have hnd : (x :: l).dropLast.Nodup := (fchain_nodup hacyc h).sublist (List.dropLast_sublist _)
  have hlen : (x :: l).dropLast.length = l.length := by simp
  have hle := nodup_subset_length_le hnd (fchain_sources_mem h)
  rw [hlen] at hle
  simpa [Dict.keys] using hle

theorem fchain_child_lt {g : PatternFlow} (hacyc : g.Acyclic) {id rid : String}
    {node : PatternFlowNode} (hget : Dict.get g.nodes id = some node)
    (hmem : some rid ∈ node.refs) :
    ∀ l, FChain g rid l → l.length < g.nodes.length := by
  intro l hc
  have := fchain_length_le hacyc (FChain.cons id rid l ⟨node, hget, hmem⟩ hc)
  simpa using this

theorem synthListWith_total {s : Cache → String → Option (Except Err Pattern × Cache)} :
    ∀ refs : List (Option String),
      (∀ c rid, some rid ∈ refs → s c rid ≠ none) →
      ∀ c, synthListWith s c refs ≠ none := by
  intro refs
  induction refs with
  | nil => intro _ c h; simp [synthListWith] at h
  | cons ref rest ih =>
    intro hs c h
    have hrest : ∀ c' rid, some rid ∈ rest → s c' rid ≠ none :=
      fun c' rid hrid => hs c' rid (List.mem_cons_of_mem _ hrid)
    rcases ref with _ | rid
    · simp only [synthListWith] at h
      rcases hrest' : synthListWith s c rest with _ | ⟨r, c₂⟩
      · exact ih hrest c hrest'
      · rw [hrest'] at h
        rcases r with e | p <;> simp at h
    · rcases hsr : s c rid with _ | ⟨r, c₁⟩
      · exact hs c rid (List.mem_cons_self _ _) hsr
      · simp only [synthListWith, hsr] at h
        rcases r with e | p
        · simp at h
        · replace h : (match synthListWith s c₁ rest with
              | none => none
              | some (Except.error e, c₂) => some (Except.error e, c₂)
              | some (Except.ok ps, c₂) => some (Except.ok (p :: ps), c₂)) = none := h
          rcases hrest' : synthListWith s c₁ rest with _ | ⟨r', c₂⟩
          · exact ih hrest c₁ hrest'
          · rw [hrest'] at h
            rcases r' with e' | ps <;> simp at h

theorem synthKwWith_total {s : Cache → String → Option (Except Err Pattern × Cache)} :
    ∀ refs : List (String × Option String),
      (∀ c rid key, (key, some rid) ∈ refs → s c rid ≠ none) →
      ∀ c, synthKwWith s c refs ≠ none := by
  intro refs
  induction refs with
  | nil => intro _ c h; simp [synthKwWith] at h
  | cons kref rest ih =>
    obtain ⟨key, ref⟩ := kref
    intro hs c h
    have hrest : ∀ c' rid key', (key', some rid) ∈ rest → s c' rid ≠ none :=
      fun c' rid key' hrid => hs c' rid key' (List.mem_cons_of_mem _ hrid)
    rcases ref with _ | rid
    · simp only [synthKwWith] at h
      rcases hrest' : synthKwWith s c rest with _ | ⟨r, c₂⟩
      · exact ih hrest c hrest'
      · rw [hrest'] at h
        rcases r with e | p <;> simp at h
    · rcases hsr : s c rid with _ | ⟨r, c₁⟩
      · exact hs c rid key (List.mem_cons_self _ _) hsr
      · simp only [synthKwWith, hsr] at h
        rcases r with e | p
        · simp at h
        · replace h : (match synthKwWith s c₁ rest with
              | none => none
              | some (Except.error e, c₂) => some (Except.error e, c₂)
              | some (Except.ok ps, c₂) => some (Except.ok ((key, p) :: ps), c₂)) = none := h
          rcases hrest' : synthKwWith s c₁ rest with _ | ⟨r', c₂⟩
          · exact ih hrest c₁ hrest'
          · rw [hrest'] at h
            rcases r' with e' | ps <;> simp at h

theorem synthF_total {g : PatternFlow} :
    ∀ fuel c id force, (∀ l, FChain g id l → l.length < fuel) →
      synthF g.nodes fuel c id force ≠ none := by
  intro fuel
  induction fuel with
  | zero =>
    intro c id force hb
    exact absurd (hb [] (FChain.nil id)) (by simp)
  | succ fuel ih =>
    intro c id force hb h
    rcases hget : Dict.get g.nodes id with _ | node
    · simp [synthF, hget] at h
    · have hchild : ∀ rid, some rid ∈ node.refs →
          ∀ l, FChain g rid l → l.length < fuel := by
        intro rid hrid l hcl
        have := hb (rid :: l) (FChain.cons id rid l ⟨node, hget, hrid⟩ hcl)
        simpa [Nat.succ_lt_succ_iff] using this
      simp only [synthF, hget] at h
      rcases hhit : (if force then none else cacheHit c id) with _ | p
      · rw [hhit] at h
        simp only at h
        rcases hlist : synthListWith (fun c' rid => synthF g.nodes fuel c' rid false)
            c node.inputs with _ | ⟨r, c₁⟩
        · refine synthListWith_total node.inputs ?_ c hlist
          intro c' rid hrid
          exact ih c' rid false
            (hchild rid (List.mem_append_left _ hrid))
        · rw [hlist] at h
          rcases r with e | ips
          · simp at h
          · simp only at h
            rcases hkw : synthKwWith (fun c' rid => synthF g.nodes fuel c' rid false)
                c₁ node.kwinputs with _ | ⟨r', c₂⟩
            · refine synthKwWith_total node.kwinputs ?_ c₁ hkw
              intro c' rid key hrid
              refine ih c' rid false (hchild rid ?_)
              refine List.mem_append_right _ ?_
              exact List.mem_map_of_mem Prod.snd hrid
            · rw [hkw] at h
              rcases r' with e' | kps <;> simp at h
      · rw [hhit] at h
        simp at h

/-- One reverse edge as recorded in the `_outputs` index. -/
def OutEdge (g : PatternFlow) (a b : String) : Prop :=
  b ∈ (Dict.get g.outputs a).getD []

/-- Soundness half of spec invariant 3: everything the reverse-edge index
lists as a consumer of `a` really references `a`. -/
def OutputsSound (g : PatternFlow) : Prop :=
  ∀ a b, OutEdge g a b → g.Ref b a

/-- A chain of successive reverse-edge targets; measures the recursion
depth of `populate`. -/
inductive OChain (g : PatternFlow) : String → List String → Prop
  | nil (x : String) : OChain g x []
  | cons (x y : String) (l : List String) :
      OutEdge g x y → OChain g y l → OChain g x (y :: l)

theorem ochain_rev_steps {g : PatternFlow} (hsound : OutputsSound g) {x : String}
    {l : List String} (h : OChain g x l) : ∀ y ∈ l, g.Steps y x := by
  induction h with
  | nil => intro y hy; cases hy
  | cons x z l hedge hchain ih =>
    intro y hy
    rcases List.mem_cons.mp hy with rfl | hy'
    · exact Relation.TransGen.single (hsound x y hedge)
    · exact Relation.TransGen.trans (ih y hy') (Relation.TransGen.single (hsound x z hedge))

theorem ochain_nodup {g : PatternFlow} (hacyc : g.Acyclic) (hsound : OutputsSound g)
    {x : String} {l : List String} (h : OChain g x l) : (x :: l).Nodup := by
  induction h with
  | nil => simp
  | cons x y l hedge hchain ih =>
    rw [List.nodup_cons]
    refine ⟨?_, ih⟩
    intro hx
    rcases List.mem_cons.mp hx with rfl | hx'
    · exact hacyc x (Relation.TransGen.single (hsound x x hedge))
    · exact hacyc x (Relation.TransGen.trans
        (ochain_rev_steps hsound hchain x hx')
        (Relation.TransGen.single (hsound x y hedge)))

theorem ochain_mem_keys {g : PatternFlow} (hsound : OutputsSound g) {x : String}
    {l : List String} (h : OChain g x l) : ∀ y ∈ l, y ∈ Dict.keys g.nodes := by
  induction h with
  | nil => intro y hy; cases hy
  | cons x z l hedge hchain ih =>
    intro y hy
    rcases List.mem_cons.mp hy with rfl | hy'
    · obtain ⟨n, hn, _⟩ := hsound x y hedge
      exact Dict.mem_keys_of_get hn
    · exact ih y hy'

theorem ochain_length_le {g : PatternFlow} (hacyc : g.Acyclic) (hsound : OutputsSound g)
    {x : String} {l : List String} (h : OChain g x l) : l.length ≤ g.nodes.length := by
  have hnd : l.Nodup := (List.nodup_cons.mp (ochain_nodup hacyc hsound h)).2
  have hle := nodup_subset_length_le hnd (ochain_mem_keys hsound h)
  simpa [Dict.keys] using hle

theorem populateListWith_total {p : Cache → String → Option (Except Err Unit × Cache)} :
    ∀ ds : List String, (∀ c d, d ∈ ds → p c d ≠ none) →
      ∀ c, populateListWith p c ds ≠ none := by
  intro ds
  induction ds with
  | nil => intro _ c h; simp [populateListWith] at h
  | cons d rest ih =>
    intro hp c h
    have hrest : ∀ c' d', d' ∈ rest → p c' d' ≠ none :=
      fun c' d' hd' => hp c' d' (List.mem_cons_of_mem _ hd')
    rcases hpd : p c d with _ | ⟨r, c₁⟩
    · exact hp c d (List.mem_cons_self _ _) hpd
    · simp only [populateListWith, hpd] at h
      rcases r with e | u
      · simp at h
      · exact ih hrest c₁ h

theorem populateF_total {g : PatternFlow} (hacyc : g.Acyclic) :
    ∀ fuel c id, (∀ l, OChain g id l → l.length < fuel) →
      populateF g.nodes g.outputs fuel c id ≠ none := by
  intro fuel
  induction fuel with
  | zero =>
    intro c id hb
    exact absurd (hb [] (OChain.nil id)) (by simp)
  | succ fuel ih =>
    intro c id hb h
    rcases hget : Dict.get g.nodes id with _ | node
    · simp [populateF, hget] at h
    · simp only [populateF, hget] at h
      rcases hs : synthF g.nodes (g.nodes.length + 1) c id true with _ | ⟨r, c₁⟩
      · refine synthF_total (g.nodes.length + 1) c id true ?_ hs
        intro l hcl
        exact Nat.lt_succ_of_le (fchain_length_le hacyc hcl)
      · rw [hs] at h
        rcases r with e | u
        · simp at h
        · simp only at h
          refine populateListWith_total _ ?_ c₁ h
          intro c' d hd
          refine ih c' d ?_
          intro l hcl
          have := hb (d :: l) (OChain.cons id d l hd hcl)
          simpa [Nat.succ_lt_succ_iff] using this

/-- C10: on a graph satisfying the structural invariants (acyclic
reference edges, reverse-edge index listing only true consumers),
`synth(id, force)` and `populate(id)` terminate: the embedded depth
budget is never exhausted, because `synth` recurses only along forward
reference chains and `populate` only along reverse-edge chains, both of
which are bounded by the number of nodes in an acyclic graph. -/
theorem C10_synth_populate_terminate (g : PatternFlow) (id : String) (force : Bool)
    (hacyc : g.Acyclic) (hsound : OutputsSound g) :
    (g.synthOp id force).isSome ∧ (g.populateOp id).isSome := by
  constructor
  · unfold PatternFlow.synthOp
    rcases hs : synthF g.nodes (g.nodes.length + 1) g.cache id force with _ | ⟨r, c⟩
    · exfalso
      refine synthF_total (g.nodes.length + 1) g.cache id force ?_ hs
      intro l hcl
      exact Nat.lt_succ_of_le (fchain_length_le hacyc hcl)
    · simp
  · unfold PatternFlow.populateOp
    rcases hp : populateF g.nodes g.outputs (g.nodes.length + 1) g.cache id with _ | ⟨r, c⟩
    · exfalso
      refine populateF_total hacyc (g.nodes.length + 1) g.cache id ?_ hp
      intro l hcl
      exact Nat.lt_succ_of_le (ochain_length_le hacyc hsound hcl)
    · simp

theorem cacheHit_some {c : Cache} {id : String} {p : Pattern}
    (h : cacheHit c id = some p) : Dict.get c id = some (some p) := by
  unfold cacheHit at h
  split at h
  · rename_i q hq
    injection h with h
    rw [← h]
    exact hq
  · cases h

theorem synthF_cache_hit {nodes : List (String × PatternFlowNode)} {fuel : Nat}
    {c : Cache} {id : String} {node : PatternFlowNode} {v : Pattern}
    (hget : Dict.get nodes id = some node) (hc : Dict.get c id = some (some v)) :
    synthF nodes (fuel + 1) c id false = some (.ok v, c) := by
  have hcache : cacheHit c id = some v := by
    unfold cacheHit
    rw [hc]
  simp only [synthF, hget, Bool.false_eq_true, if_false]
  rw [hcache]

theorem synthF_ok_cache {nodes : List (String × PatternFlowNode)} {fuel : Nat} {c : Cache}
    {id : String} {force : Bool} {v : Pattern} {c' : Cache}
    (h : synthF nodes fuel c id force = some (.ok v, c')) :
    (∃ node, Dict.get nodes id = some node) ∧ Dict.get c' id = some (some v) := by
  match fuel with
  | 0 => exact absurd h (by simp [synthF])
  | fuel + 1 =>
    rcases hget : Dict.get nodes id with _ | node
    · simp [synthF, hget] at h
    · simp only [synthF, hget] at h
      rcases hhit : (if force then none else cacheHit c id) with _ | p
      · rw [hhit] at h
        replace h : (match synthListWith (fun c' rid => synthF nodes fuel c' rid false)
              c node.inputs with
            | none => none
            | some (Except.error e, c₁) => some (Except.error e, c₁)
            | some (Except.ok ips, c₁) =>
              match synthKwWith (fun c' rid => synthF nodes fuel c' rid false)
                  c₁ node.kwinputs with
              | none => none
              | some (Except.error e, c₂) => some (Except.error e, c₂)
              | some (Except.ok kps, c₂) =>
                some (Except.ok (node.modifier.forward ips kps),
                  Dict.set c₂ id (some (node.modifier.forward ips kps)))) =
            some (Except.ok v, c') := h
        rcases hl : synthListWith (fun c' rid => synthF nodes fuel c' rid false)
            c node.inputs with _ | ⟨r, c₁⟩
        · rw [hl] at h
          exact Option.noConfusion h
        · rw [hl] at h
          rcases r with e | ips
          · simp at h
          · replace h : (match synthKwWith (fun c' rid => synthF nodes fuel c' rid false)
                  c₁ node.kwinputs with
                | none => none
                | some (Except.error e, c₂) => some (Except.error e, c₂)
                | some (Except.ok kps, c₂) =>
                  some (Except.ok (node.modifier.forward ips kps),
                    Dict.set c₂ id (some (node.modifier.forward ips kps)))) =
                some (Except.ok v, c') := h
            rcases hk : synthKwWith (fun c' rid => synthF nodes fuel c' rid false)
                c₁ node.kwinputs with _ | ⟨r', c₂⟩
            · rw [hk] at h
              exact Option.noConfusion h
            · rw [hk] at h
              rcases r' with e' | kps
              · simp at h
              · simp only [Option.some.injEq, Prod.mk.injEq, Except.ok.injEq] at h
                obtain ⟨hv, hc⟩ := h
                refine ⟨⟨node, rfl⟩, ?_⟩
                rw [← hc, ← hv]
                exact Dict.get_set_self _ _ _
      · rw [hhit] at h
        replace h : (some (Except.ok p, c) : Option (Except Err Pattern × Cache)) =
            some (Except.ok v, c') := h
        simp only [Option.some.injEq, Prod.mk.injEq, Except.ok.injEq] at h
        obtain ⟨hv, hc⟩ := h
        refine ⟨⟨node, rfl⟩, ?_⟩
        rw [← hc, ← hv]
        cases force with
        | true => exact absurd hhit (by simp)
        | false =>
          refine cacheHit_some ?_
          simpa using hhit

/-- C5: `synth(id)` called twice with `force=false` and no intervening
mutation returns the identical cached value both times: a successful
first call guarantees the second call is a pure cache hit that returns
the stored cache slot and leaves the graph state unchanged. -/
theorem C5_synth_twice_cached (g : PatternFlow) (id : String) (v : Pattern)
    (g' : PatternFlow) (h : g.synthOp id false = some (.ok v, g')) :
    g'.synthOp id false = some (.ok v, g') := by
  unfold PatternFlow.synthOp at h ⊢
  rcases hs : synthF g.nodes (g.nodes.length + 1) g.cache id false with _ | ⟨r, c⟩
  · rw [hs] at h
    exact Option.noConfusion h
  · rw [hs] at h
    simp only [Option.map, Option.some.injEq, Prod.mk.injEq] at h
    obtain ⟨hr, hg'⟩ := h
    subst hg'
    rw [hr] at hs
    obtain ⟨⟨node, hget⟩, hcache⟩ := synthF_ok_cache hs
    have hhit : synthF g.nodes (g.nodes.length + 1) c id false = some (.ok v, c) :=
      synthF_cache_hit hget hcache
    simp only
    rw [hhit]
    rfl

theorem synthListWith_cons_none {s : Cache → String → Option (Except Err Pattern × Cache)}
    {c : Cache} {rest : List (Option String)} :
    synthListWith s c (none :: rest) =
      (match synthListWith s c rest with
       | none => none
       | some (Except.error e, c₂) => some (Except.error e, c₂)
       | some (Except.ok ps, c₂) => some (Except.ok (Pattern.empty :: ps), c₂)) := rfl

theorem synthListWith_cons_some {s : Cache → String → Option (Except Err Pattern × Cache)}
    {c : Cache} {rid : String} {rest : List (Option String)} :
    synthListWith s c (some rid :: rest) =
      (match s c rid with
       | none => none
       | some (Except.error e, c₁) => some (Except.error e, c₁)
       | some (Except.ok p, c₁) =>
         match synthListWith s c₁ rest with
         | none => none
         | some (Except.error e, c₂) => some (Except.error e, c₂)
         | some (Except.ok ps, c₂) => some (Except.ok (p :: ps), c₂)) := rfl

theorem synthKwWith_cons_none {s : Cache → String → Option (Except Err Pattern × Cache)}
    {c : Cache} {key : String} {rest : List (String × Option String)} :
    synthKwWith s c ((key, none) :: rest) =
      (match synthKwWith s c rest with
       | none => none
       | some (Except.error e, c₂) => some (Except.error e, c₂)
       | some (Except.ok ps, c₂) => some (Except.ok ((key, Pattern.empty) :: ps), c₂)) := rfl

theorem synthKwWith_cons_some {s : Cache → String → Option (Except Err Pattern × Cache)}
    {c : Cache} {key rid : String} {rest : List (String × Option String)} :
    synthKwWith s c ((key, some rid) :: rest) =
      (match s c rid with
       | none => none
       | some (Except.error e, c₁) => some (Except.error e, c₁)
       | some (Except.ok p, c₁) =>
         match synthKwWith s c₁ rest with
         | none => none
         | some (Except.error e, c₂) => some (Except.error e, c₂)
         | some (Except.ok ps, c₂) => some (Except.ok ((key, p) :: ps), c₂)) := rfl

theorem denoteListWith_cons_none {d : String → Option (Except Err Pattern)}
    {rest : List (Option String)} :
    denoteListWith d (none :: rest) =
      (match denoteListWith d rest with
       | none => none
       | some (Except.error e) => some (Except.error e)
       | some (Except.ok ps) => some (Except.ok (Pattern.empty :: ps))) := rfl

theorem denoteListWith_cons_some {d : String → Option (Except Err Pattern)}
    {rid : String} {rest : List (Option String)} :
    denoteListWith d (some rid :: rest) =
      (match d rid with
       | none => none
       | some (Except.error e) => some (Except.error e)
       | some (Except.ok p) =>
         match denoteListWith d rest with
         | none => none
         | some (Except.error e) => some (Except.error e)
         | some (Except.ok ps) => some (Except.ok (p :: ps))) := rfl

theorem denoteKwWith_cons_none {d : String → Option (Except Err Pattern)}
    {key : String} {rest : List (String × Option String)} :
    denoteKwWith d ((key, none) :: rest) =
      (match denoteKwWith d rest with
       | none => none
       | some (Except.error e) => some (Except.error e)
       | some (Except.ok ps) => some (Except.ok ((key, Pattern.empty) :: ps))) := rfl

theorem denoteKwWith_cons_some {d : String → Option (Except Err Pattern)}
    {key rid : String} {rest : List (String × Option String)} :
    denoteKwWith d ((key, some rid) :: rest) =
      (match d rid with
       | none => none
       | some (Except.error e) => some (Except.error e)
       | some (Except.ok p) =>
         match denoteKwWith d rest with
         | none => none
         | some (Except.error e) => some (Except.error e)
         | some (Except.ok ps) => some (Except.ok ((key, p) :: ps))) := rfl

theorem denoteF_succ_compute {nodes : List (String × PatternFlowNode)} {fuel : Nat}
    {id : String} {node : PatternFlowNode} (hget : Dict.get nodes id = some node) :
    denoteF nodes (fuel + 1) id =
      (match denoteListWith (denoteF nodes fuel) node.inputs with
       | none => none
       | some (Except.error e) => some (Except.error e)
       | some (Except.ok ips) =>
         match denoteKwWith (denoteF nodes fuel) node.kwinputs with
         | none => none
         | some (Except.error e) => some (Except.error e)
         | some (Except.ok kps) => some (Except.ok (node.modifier.forward ips kps))) := by
  simp only [denoteF, hget]

theorem synthF_succ_compute {nodes : List (String × PatternFlowNode)} {fuel : Nat}
    {c : Cache} {id : String} {force : Bool} {node : PatternFlowNode}
    (hget : Dict.get nodes id = some node)
    (hhit : (if force then none else cacheHit c id) = none) :
    synthF nodes (fuel + 1) c id force =
      (match synthListWith (fun c' rid => synthF nodes fuel c' rid false) c node.inputs with
       | none => none
       | some (Except.error e, c₁) => some (Except.error e, c₁)
       | some (Except.ok ips, c₁) =>
         match synthKwWith (fun c' rid => synthF nodes fuel c' rid false) c₁ node.kwinputs with
         | none => none
         | some (Except.error e, c₂) => some (Except.error e, c₂)
         | some (Except.ok kps, c₂) =>
           some (Except.ok (node.modifier.forward ips kps),
             Dict.set c₂ id (some (node.modifier.forward ips kps)))) := by
  simp only [synthF, hget]
  rw [hhit]

theorem denoteListWith_mono {d d' : String → Option (Except Err Pattern)}
    (hdd : ∀ rid r, d rid = some r → d' rid = some r) :
    ∀ (refs : List (Option String)) r, denoteListWith d refs = some r →
      denoteListWith d' refs = some r := by
  intro refs
  induction refs with
  | nil => intro r h; exact h
  | cons ref rest ih =>
    intro r h
    rcases ref with _ | rid
    · rw [denoteListWith_cons_none] at h ⊢
      rcases hr : denoteListWith d rest with _ | r₁
      · rw [hr] at h
        exact Option.noConfusion h
      · rw [hr] at h
        rw [ih r₁ hr]
        exact h
    · rw [denoteListWith_cons_some] at h ⊢
      rcases hd : d rid with _ | r₁
      · rw [hd] at h
        exact Option.noConfusion h
      · rw [hd] at h
        rw [hdd rid r₁ hd]
        rcases r₁ with e | p
        · exact h
        · replace h : (match denoteListWith d rest with
              | none => none
              | some (Except.error e) => some (Except.error e)
              | some (Except.ok ps) => some (Except.ok (p :: ps))) = some r := h
          show (match denoteListWith d' rest with
              | none => none
              | some (Except.error e) => some (Except.error e)
              | some (Except.ok ps) => some (Except.ok (p :: ps))) = some r
          rcases hr : denoteListWith d rest with _ | r₂
          · rw [hr] at h
            exact Option.noConfusion h
          · rw [hr] at h
            rw [ih r₂ hr]
            exact h

theorem denoteKwWith_mono {d d' : String → Option (Except Err Pattern)}
    (hdd : ∀ rid r, d rid = some r → d' rid = some r) :
    ∀ (refs : List (String × Option String)) r, denoteKwWith d refs = some r →
      denoteKwWith d' refs = some r := by
  intro refs
  induction refs with
  | nil => intro r h; exact h
  | cons kref rest ih =>
    obtain ⟨key, ref⟩ := kref
    intro r h
    rcases ref with _ | rid
    · rw [denoteKwWith_cons_none] at h ⊢
      rcases hr : denoteKwWith d rest with _ | r₁
      · rw [hr] at h
        exact Option.noConfusion h
      · rw [hr] at h
        rw [ih r₁ hr]
        exact h
    · rw [denoteKwWith_cons_some] at h ⊢
      rcases hd : d rid with _ | r₁
      · rw [hd] at h
        exact Option.noConfusion h
      · rw [hd] at h
        rw [hdd rid r₁ hd]
        rcases r₁ with e | p
        · exact h
        · replace h : (match denoteKwWith d rest with
              | none => none
              | some (Except.error e) => some (Except.error e)
              | some (Except.ok ps) => some (Except.ok ((key, p) :: ps))) = some r := h
          show (match denoteKwWith d' rest with
              | none => none
              | some (Except.error e) => some (Except.error e)
              | some (Except.ok ps) => some (Except.ok ((key, p) :: ps))) = some r
          rcases hr : denoteKwWith d rest with _ | r₂
          · rw [hr] at h
            exact Option.noConfusion h
          · rw [hr] at h
            rw [ih r₂ hr]
            exact h

theorem denoteF_mono {nodes : List (String × PatternFlowNode)} :
    ∀ fuel fuel', fuel ≤ fuel' → ∀ id r, denoteF nodes fuel id = some r →
      denoteF nodes fuel' id = some r := by
  intro fuel
  induction fuel with
  | zero => intro fuel' _ id r h; exact absurd h (by simp [denoteF])
  | succ fuel ih =>
    intro fuel' hle id r h
    obtain ⟨fuel'', rfl⟩ : ∃ k, fuel' = k + 1 := ⟨fuel' - 1, by omega⟩
    have hle' : fuel ≤ fuel'' := by omega
    have hstep : ∀ rid r', denoteF nodes fuel rid = some r' →
        denoteF nodes fuel'' rid = some r' := fun rid r' hr => ih fuel'' hle' rid r' hr
    rcases hget : Dict.get nodes id with _ | node
    · simp only [denoteF, hget] at h ⊢
      exact h
    · rw [denoteF_succ_compute hget] at h ⊢
      rcases hl : denoteListWith (denoteF nodes fuel) node.inputs with _ | r₁
      · rw [hl] at h
        exact Option.noConfusion h
      · rw [hl] at h
        rw [denoteListWith_mono hstep node.inputs r₁ hl]
        rcases r₁ with e | ips
        · exact h
        · replace h : (match denoteKwWith (denoteF nodes fuel) node.kwinputs with
              | none => none
              | some (Except.error e) => some (Except.error e)
              | some (Except.ok kps) =>
                some (Except.ok (node.modifier.forward ips kps))) = some r := h
          show (match denoteKwWith (denoteF nodes fuel'') node.kwinputs with
              | none => none
              | some (Except.error e) => some (Except.error e)
              | some (Except.ok kps) =>
                some (Except.ok (node.modifier.forward ips kps))) = some r
          rcases hk : denoteKwWith (denoteF nodes fuel) node.kwinputs with _ | r₂
          · rw [hk] at h
            exact Option.noConfusion h
          · rw [hk] at h
            rw [denoteKwWith_mono hstep node.kwinputs r₂ hk]
            exact h

theorem denoteListWith_total {d : String → Option (Except Err Pattern)} :
    ∀ refs : List (Option String), (∀ rid, some rid ∈ refs → d rid ≠ none) →
      denoteListWith d refs ≠ none := by
  intro refs
  induction refs with
  | nil => intro _ h; exact Option.noConfusion h
  | cons ref rest ih =>
    intro hd h
    have hrest : ∀ rid, some rid ∈ rest → d rid ≠ none :=
      fun rid hrid => hd rid (List.mem_cons_of_mem _ hrid)
    rcases ref with _ | rid
    · rw [denoteListWith_cons_none] at h
      rcases hr : denoteListWith d rest with _ | r₁
      · exact ih hrest hr
      · rw [hr] at h
        rcases r₁ with e | ps <;> exact Option.noConfusion h
    · rw [denoteListWith_cons_some] at h
      rcases hdr : d rid with _ | r₁
      · exact hd rid (List.mem_cons_self _ _) hdr
      · rw [hdr] at h
        rcases r₁ with e | p
        · exact Option.noConfusion h
        · replace h : (match denoteListWith d rest with
              | none => none
              | some (Except.error e) => some (Except.error e)
              | some (Except.ok ps) => some (Except.ok (p :: ps))) = none := h
          rcases hr : denoteListWith d rest with _ | r₂
          · exact ih hrest hr
          · rw [hr] at h
            rcases r₂ with e | ps <;> exact Option.noConfusion h

theorem denoteKwWith_total {d : String → Option (Except Err Pattern)} :
    ∀ refs : List (String × Option String),
      (∀ rid key, (key, some rid) ∈ refs → d rid ≠ none) →
      denoteKwWith d refs ≠ none := by
  intro refs
  induction refs with
  | nil => intro _ h; exact Option.noConfusion h
  | cons kref rest ih =>
    obtain ⟨key, ref⟩ := kref
    intro hd h
    have hrest : ∀ rid key', (key', some rid) ∈ rest → d rid ≠ none :=
      fun rid key' hrid => hd rid key' (List.mem_cons_of_mem _ hrid)
    rcases ref with _ | rid
    · rw [denoteKwWith_cons_none] at h
      rcases hr : denoteKwWith d rest with _ | r₁
      · exact ih hrest hr
      · rw [hr] at h
        rcases r₁ with e | ps <;> exact Option.noConfusion h
    · rw [denoteKwWith_cons_some] at h
      rcases hdr : d rid with _ | r₁
      · exact hd rid key (List.mem_cons_self _ _) hdr
      · rw [hdr] at h
        rcases r₁ with e | p
        · exact Option.noConfusion h
        · replace h : (match denoteKwWith d rest with
              | none => none
              | some (Except.error e) => some (Except.error e)
              | some (Except.ok ps) => some (Except.ok ((key, p) :: ps))) = none := h
          rcases hr : denoteKwWith d rest with _ | r₂
          · exact ih hrest hr
          · rw [hr] at h
            rcases r₂ with e | ps <;> exact Option.noConfusion h

theorem denoteF_total {g : PatternFlow} :
    ∀ fuel id, (∀ l, FChain g id l → l.length < fuel) →
      denoteF g.nodes fuel id ≠ none := by
  intro fuel
  induction fuel with
  | zero =>
    intro id hb
    exact absurd (hb [] (FChain.nil id)) (by simp)
  | succ fuel ih =>
    intro id hb h
    rcases hget : Dict.get g.nodes id with _ | node
    · simp [denoteF, hget] at h
    · have hchild : ∀ rid, some rid ∈ node.refs →
          ∀ l, FChain g rid l → l.length < fuel := by
        intro rid hrid l hcl
        have := hb (rid :: l) (FChain.cons id rid l ⟨node, hget, hrid⟩ hcl)
        simpa [Nat.succ_lt_succ_iff] using this
      rw [denoteF_succ_compute hget] at h
      rcases hl : denoteListWith (denoteF g.nodes fuel) node.inputs with _ | r₁
      · refine denoteListWith_total node.inputs ?_ hl
        intro rid hrid
        exact ih rid (hchild rid (List.mem_append_left _ hrid))
      · rw [hl] at h
        rcases r₁ with e | ips
        · exact Option.noConfusion h
        · replace h : (match denoteKwWith (denoteF g.nodes fuel) node.kwinputs with
              | none => none
              | some (Except.error e) => some (Except.error e)
              | some (Except.ok kps) =>
                some (Except.ok (node.modifier.forward ips kps))) = none := h
          rcases hk : denoteKwWith (denoteF g.nodes fuel) node.kwinputs with _ | r₂
          · refine denoteKwWith_total node.kwinputs ?_ hk
            intro rid key hrid
            refine ih rid (hchild rid ?_)
            exact List.mem_append_right _ (List.mem_map_of_mem Prod.snd hrid)
          · rw [hk] at h
            rcases r₂ with e | kps <;> exact Option.noConfusion h

/-- Cache coherence (spec invariant 4): every populated cache slot holds
exactly the value its node denotes against the current graph state. -/
def CoherentC (nodes : List (String × PatternFlowNode)) (c : Cache) : Prop :=
  ∀ id p, Dict.get c id = some (some p) → denoteOp nodes id = some (.ok p)

/-- Populated cache slots survive an operation with their exact values. -/
def CacheMono (c c' : Cache) : Prop :=
  ∀ j p, Dict.get c j = some (some p) → Dict.get c' j = some (some p)

theorem cacheMono_refl (c : Cache) : CacheMono c c := fun _ _ hj => hj

theorem cacheMono_trans {c₀ c₁ c₂ : Cache} (h₀ : CacheMono c₀ c₁)
    (h₁ : CacheMono c₁ c₂) : CacheMono c₀ c₂ :=
  fun j p hj => h₁ j p (h₀ j p hj)

theorem denoteF_len_of_denoteOp {nodes : List (String × PatternFlowNode)} {rid : String}
    {r : Except Err Pattern}
    (hne : denoteF nodes nodes.length rid ≠ none)
    (hr : denoteOp nodes rid = some r) :
    denoteF nodes nodes.length rid = some r := by
  rcases hdn : denoteF nodes nodes.length rid with _ | r'
  · exact absurd hdn hne
  · have hmono := denoteF_mono nodes.length (nodes.length + 1) (by omega) rid r' hdn
    rw [denoteOp] at hr
    rw [hr] at hmono
    injection hmono with hmono
    rw [hmono]

theorem synthListWith_correct {g : PatternFlow} {fuel : Nat}
    (IH : ∀ c id force res c', CoherentC g.nodes c →
      synthF g.nodes fuel c id force = some (res, c') →
      CoherentC g.nodes c' ∧ CacheMono c c' ∧
      ∀ v, res = .ok v →
        denoteOp g.nodes id = some (.ok v) ∧ Dict.get c' id = some (some v)) :
    ∀ (refs : List (Option String)) (c : Cache) (res : Except Err (List Pattern))
      (c' : Cache), CoherentC g.nodes c →
      (∀ rid, some rid ∈ refs → denoteF g.nodes g.nodes.length rid ≠ none) →
      synthListWith (fun c'' rid => synthF g.nodes fuel c'' rid false) c refs =
        some (res, c') →
      CoherentC g.nodes c' ∧ CacheMono c c' ∧
      ∀ ps, res = .ok ps →
        denoteListWith (denoteF g.nodes g.nodes.length) refs = some (.ok ps) := by
  intro refs
  induction refs with
  | nil =>
    intro c res c' hco _ h
    replace h : (some (Except.ok ([] : List Pattern), c) :
        Option (Except Err (List Pattern) × Cache)) = some (res, c') := h
    simp only [Option.some.injEq, Prod.mk.injEq] at h
    obtain ⟨hres, hc⟩ := h
    subst hc
    refine ⟨hco, cacheMono_refl c, ?_⟩
    intro ps hps
    rw [← hres] at hps
    injection hps with hps
    rw [← hps]
    rfl
  | cons ref rest ih =>
    intro c res c' hco hden h
    have hdenrest : ∀ rid, some rid ∈ rest → denoteF g.nodes g.nodes.length rid ≠ none :=
      fun rid hrid => hden rid (List.mem_cons_of_mem _ hrid)
    rcases ref with _ | rid
    · rw [synthListWith_cons_none] at h
      rcases hr : synthListWith (fun c'' rid => synthF g.nodes fuel c'' rid false) c rest
          with _ | ⟨r₁, c₁⟩
      · rw [hr] at h
        exact Option.noConfusion h
      · rw [hr] at h
        obtain ⟨hco₁, hmono₁, hok₁⟩ := ih c r₁ c₁ hco hdenrest hr
        rcases r₁ with e | ps₁
        · replace h : (some (Except.error e, c₁) :
              Option (Except Err (List Pattern) × Cache)) = some (res, c') := h
          simp only [Option.some.injEq, Prod.mk.injEq] at h
          obtain ⟨hres, hc⟩ := h
          subst hc
          refine ⟨hco₁, hmono₁, ?_⟩
          intro ps hps
          rw [← hres] at hps
          exact absurd hps (by simp)
        · replace h : (some (Except.ok (Pattern.empty :: ps₁), c₁) :
              Option (Except Err (List Pattern) × Cache)) = some (res, c') := h
          simp only [Option.some.injEq, Prod.mk.injEq] at h
          obtain ⟨hres, hc⟩ := h
          subst hc
          refine ⟨hco₁, hmono₁, ?_⟩
          intro ps hps
          rw [← hres] at hps
          injection hps with hps
          rw [denoteListWith_cons_none, hok₁ ps₁ rfl, ← hps]
    · rw [synthListWith_cons_some] at h
      rcases hsr : synthF g.nodes fuel c rid false with _ | ⟨r₀, c₀⟩
      · rw [hsr] at h
        exact Option.noConfusion h
      · rw [hsr] at h
        obtain ⟨hco₀, hmono₀, hok₀⟩ := IH c rid false r₀ c₀ hco hsr
        rcases r₀ with e | p
        · replace h : (some (Except.error e, c₀) :
              Option (Except Err (List Pattern) × Cache)) = some (res, c') := h
          simp only [Option.some.injEq, Prod.mk.injEq] at h
          obtain ⟨hres, hc⟩ := h
          subst hc
          refine ⟨hco₀, hmono₀, ?_⟩
          intro ps hps
          rw [← hres] at hps
          exact absurd hps (by simp)
        · replace h : (match synthListWith
                (fun c'' rid => synthF g.nodes fuel c'' rid false) c₀ rest with
              | none => none
              | some (Except.error e, c₂) => some (Except.error e, c₂)
              | some (Except.ok ps, c₂) => some (Except.ok (p :: ps), c₂)) =
            some (res, c') := h
          rcases hr : synthListWith (fun c'' rid => synthF g.nodes fuel c'' rid false)
              c₀ rest with _ | ⟨r₁, c₁⟩
          · rw [hr] at h
            exact Option.noConfusion h
          · rw [hr] at h
            obtain ⟨hco₁, hmono₁, hok₁⟩ := ih c₀ r₁ c₁ hco₀ hdenrest hr
            rcases r₁ with e | ps₁
            · replace h : (some (Except.error e, c₁) :
                  Option (Except Err (List Pattern) × Cache)) = some (res, c') := h
              simp only [Option.some.injEq, Prod.mk.injEq] at h
              obtain ⟨hres, hc⟩ := h
              subst hc
              refine ⟨hco₁, cacheMono_trans hmono₀ hmono₁, ?_⟩
              intro ps hps
              rw [← hres] at hps
              exact absurd hps (by simp)
            · replace h : (some (Except.ok (p :: ps₁), c₁) :
                  Option (Except Err (List Pattern) × Cache)) = some (res, c') := h
              simp only [Option.some.injEq, Prod.mk.injEq] at h
              obtain ⟨hres, hc⟩ := h
              subst hc
              refine ⟨hco₁, cacheMono_trans hmono₀ hmono₁, ?_⟩
              intro ps hps
              rw [← hres] at hps
              injection hps with hps
              have hdl : denoteF g.nodes g.nodes.length rid = some (.ok p) :=
                denoteF_len_of_denoteOp (hden rid (List.mem_cons_self _ _)) (hok₀ p rfl).1
              rw [denoteListWith_cons_some, hdl]
              show (match denoteListWith (denoteF g.nodes g.nodes.length) rest with
                  | none => none
                  | some (Except.error e) => some (Except.error e)
                  | some (Except.ok ps') => some (Except.ok (p :: ps'))) =
                some (Except.ok ps)
              rw [hok₁ ps₁ rfl, ← hps]

theorem synthKwWith_correct {g : PatternFlow} {fuel : Nat}
    (IH : ∀ c id force res c', CoherentC g.nodes c →
      synthF g.nodes fuel c id force = some (res, c') →
      CoherentC g.nodes c' ∧ CacheMono c c' ∧
      ∀ v, res = .ok v →
        denoteOp g.nodes id = some (.ok v) ∧ Dict.get c' id = some (some v)) :
    ∀ (refs : List (String × Option String)) (c : Cache)
      (res : Except Err (List (String × Pattern))) (c' : Cache), CoherentC g.nodes c →
      (∀ rid key, (key, some rid) ∈ refs → denoteF g.nodes g.nodes.length rid ≠ none) →
      synthKwWith (fun c'' rid => synthF g.nodes fuel c'' rid false) c refs =
        some (res, c') →
      CoherentC g.nodes c' ∧ CacheMono c c' ∧
      ∀ ps, res = .ok ps →
        denoteKwWith (denoteF g.nodes g.nodes.length) refs = some (.ok ps) := by
  intro refs
  induction refs with
  | nil =>
    intro c res c' hco _ h
    replace h : (some (Except.ok ([] : List (String × Pattern)), c) :
        Option (Except Err (List (String × Pattern)) × Cache)) = some (res, c') := h
    simp only [Option.some.injEq, Prod.mk.injEq] at h
    obtain ⟨hres, hc⟩ := h
    subst hc
    refine ⟨hco, cacheMono_refl c, ?_⟩
    intro ps hps
    rw [← hres] at hps
    injection hps with hps
    rw [← hps]
    rfl
  | cons kref rest ih =>
    obtain ⟨key, ref⟩ := kref
    intro c res c' hco hden h
    have hdenrest : ∀ rid key', (key', some rid) ∈ rest →
        denoteF g.nodes g.nodes.length rid ≠ none :=
      fun rid key' hrid => hden rid key' (List.mem_cons_of_mem _ hrid)
    rcases ref with _ | rid
    · rw [synthKwWith_cons_none] at h
      rcases hr : synthKwWith (fun c'' rid => synthF g.nodes fuel c'' rid false) c rest
          with _ | ⟨r₁, c₁⟩
      · rw [hr] at h
        exact Option.noConfusion h
      · rw [hr] at h
        obtain ⟨hco₁, hmono₁, hok₁⟩ := ih c r₁ c₁ hco hdenrest hr
        rcases r₁ with e | ps₁
        · replace h : (some (Except.error e, c₁) :
              Option (Except Err (List (String × Pattern)) × Cache)) = some (res, c') := h
          simp only [Option.some.injEq, Prod.mk.injEq] at h
          obtain ⟨hres, hc⟩ := h
          subst hc
          refine ⟨hco₁, hmono₁, ?_⟩
          intro ps hps
          rw [← hres] at hps
          exact absurd hps (by simp)
        · replace h : (some (Except.ok ((key, Pattern.empty) :: ps₁), c₁) :
              Option (Except Err (List (String × Pattern)) × Cache)) = some (res, c') := h
          simp only [Option.some.injEq, Prod.mk.injEq] at h
          obtain ⟨hres, hc⟩ := h
          subst hc
          refine ⟨hco₁, hmono₁, ?_⟩
          intro ps hps
          rw [← hres] at hps
          injection hps with hps
          rw [denoteKwWith_cons_none, hok₁ ps₁ rfl, ← hps]
    · rw [synthKwWith_cons_some] at h
      rcases hsr : synthF g.nodes fuel c rid false with _ | ⟨r₀, c₀⟩
      · rw [hsr] at h
        exact Option.noConfusion h
      · rw [hsr] at h
        obtain ⟨hco₀, hmono₀, hok₀⟩ := IH c rid false r₀ c₀ hco hsr
        rcases r₀ with e | p
        · replace h : (some (Except.error e, c₀) :
              Option (Except Err (List (String × Pattern)) × Cache)) = some (res, c') := h
          simp only [Option.some.injEq, Prod.mk.injEq] at h
          obtain ⟨hres, hc⟩ := h
          subst hc
          refine ⟨hco₀, hmono₀, ?_⟩
          intro ps hps
          rw [← hres] at hps
          exact absurd hps (by simp)
        · replace h : (match synthKwWith
                (fun c'' rid => synthF g.nodes fuel c'' rid false) c₀ rest with
              | none => none
              | some (Except.error e, c₂) => some (Except.error e, c₂)
              | some (Except.ok ps, c₂) => some (Except.ok ((key, p) :: ps), c₂)) =
            some (res, c') := h
          rcases hr : synthKwWith (fun c'' rid => synthF g.nodes fuel c'' rid false)
              c₀ rest with _ | ⟨r₁, c₁⟩
          · rw [hr] at h
            exact Option.noConfusion h
          · rw [hr] at h
            obtain ⟨hco₁, hmono₁, hok₁⟩ := ih c₀ r₁ c₁ hco₀ hdenrest hr
            rcases r₁ with e | ps₁
            · replace h : (some (Except.error e, c₁) :
                  Option (Except Err (List (String × Pattern)) × Cache)) =
                some (res, c') := h
              simp only [Option.some.injEq, Prod.mk.injEq] at h
              obtain ⟨hres, hc⟩ := h
              subst hc
              refine ⟨hco₁, cacheMono_trans hmono₀ hmono₁, ?_⟩
              intro ps hps
              rw [← hres] at hps
              exact absurd hps (by simp)
            · replace h : (some (Except.ok ((key, p) :: ps₁), c₁) :
                  Option (Except Err (List (String × Pattern)) × Cache)) =
                some (res, c') := h
              simp only [Option.some.injEq, Prod.mk.injEq] at h
              obtain ⟨hres, hc⟩ := h
              subst hc
              refine ⟨hco₁, cacheMono_trans hmono₀ hmono₁, ?_⟩
              intro ps hps
              rw [← hres] at hps
              injection hps with hps
              have hdl : denoteF g.nodes g.nodes.length rid = some (.ok p) :=
                denoteF_len_of_denoteOp (hden rid key (List.mem_cons_self _ _))
                  (hok₀ p rfl).1
              rw [denoteKwWith_cons_some, hdl]
              show (match denoteKwWith (denoteF g.nodes g.nodes.length) rest with
                  | none => none
                  | some (Except.error e) => some (Except.error e)
                  | some (Except.ok ps') => some (Except.ok ((key, p) :: ps'))) =
                some (Except.ok ps)
              rw [hok₁ ps₁ rfl, ← hps]

theorem synthF_correct {g : PatternFlow} (hacyc : g.Acyclic) :
    ∀ fuel c id force res c',
      CoherentC g.nodes c →
      synthF g.nodes fuel c id force = some (res, c') →
      CoherentC g.nodes c' ∧ CacheMono c c' ∧
      ∀ v, res = .ok v →
        denoteOp g.nodes id = some (.ok v) ∧ Dict.get c' id = some (some v) := by
  intro fuel
  induction fuel with
  | zero => intro c id force res c' _ h; exact absurd h (by simp [synthF])
  | succ fuel ih =>
    intro c id force res c' hco h
    rcases hget : Dict.get g.nodes id with _ | node
    · simp only [synthF, hget] at h
      replace h : (some (Except.error (Err.keyError id), c) :
          Option (Except Err Pattern × Cache)) = some (res, c') := h
      simp only [Option.some.injEq, Prod.mk.injEq] at h
      obtain ⟨hres, hc⟩ := h
      subst hc
      refine ⟨hco, cacheMono_refl c, ?_⟩
      intro v hv
      rw [← hres] at hv
      exact absurd hv (by simp)
    · rcases hhit : (if force then none else cacheHit c id) with _ | p
      · rw [synthF_succ_compute hget hhit] at h
        have hdenin : ∀ rid, some rid ∈ node.inputs →
            denoteF g.nodes g.nodes.length rid ≠ none := by
          intro rid hrid
          exact denoteF_total g.nodes.length rid
            (fchain_child_lt hacyc hget (List.mem_append_left _ hrid))
        have hdenkw : ∀ rid key, (key, some rid) ∈ node.kwinputs →
            denoteF g.nodes g.nodes.length rid ≠ none := by
          intro rid key hrid
          exact denoteF_total g.nodes.length rid
            (fchain_child_lt hacyc hget
              (List.mem_append_right _ (List.mem_map_of_mem Prod.snd hrid)))
        rcases hl : synthListWith (fun c'' rid => synthF g.nodes fuel c'' rid false)
            c node.inputs with _ | ⟨r₁, c₁⟩
        · rw [hl] at h
          exact Option.noConfusion h
        · rw [hl] at h
          obtain ⟨hco₁, hmono₁, hok₁⟩ :=
            synthListWith_correct ih node.inputs c r₁ c₁ hco hdenin hl
          rcases r₁ with e | ips
          · replace h : (some (Except.error e, c₁) :
                Option (Except Err Pattern × Cache)) = some (res, c') := h
            simp only [Option.some.injEq, Prod.mk.injEq] at h
            obtain ⟨hres, hc⟩ := h
            subst hc
            refine ⟨hco₁, hmono₁, ?_⟩
            intro v hv
            rw [← hres] at hv
            exact absurd hv (by simp)
          · replace h : (match synthKwWith
                  (fun c'' rid => synthF g.nodes fuel c'' rid false) c₁ node.kwinputs with
                | none => none
                | some (Except.error e, c₂) => some (Except.error e, c₂)
                | some (Except.ok kps, c₂) =>
                  some (Except.ok (node.modifier.forward ips kps),
                    Dict.set c₂ id (some (node.modifier.forward ips kps)))) =
              some (res, c') := h
            rcases hk : synthKwWith (fun c'' rid => synthF g.nodes fuel c'' rid false)
                c₁ node.kwinputs with _ | ⟨r₂, c₂⟩
            · rw [hk] at h
              exact Option.noConfusion h
            · rw [hk] at h
              obtain ⟨hco₂, hmono₂, hok₂⟩ :=
                synthKwWith_correct ih node.kwinputs c₁ r₂ c₂ hco₁ hdenkw hk
              rcases r₂ with e | kps
              · replace h : (some (Except.error e, c₂) :
                    Option (Except Err Pattern × Cache)) = some (res, c') := h
                simp only [Option.some.injEq, Prod.mk.injEq] at h
                obtain ⟨hres, hc⟩ := h
                subst hc
                refine ⟨hco₂, cacheMono_trans hmono₁ hmono₂, ?_⟩
                intro v hv
                rw [← hres] at hv
                exact absurd hv (by simp)
              · replace h : (some (Except.ok (node.modifier.forward ips kps),
                    Dict.set c₂ id (some (node.modifier.forward ips kps))) :
                    Option (Except Err Pattern × Cache)) = some (res, c') := h
                simp only [Option.some.injEq, Prod.mk.injEq] at h
                obtain ⟨hres, hc⟩ := h
                have hdenid : denoteOp g.nodes id =
                    some (.ok (node.modifier.forward ips kps)) := by
                  rw [denoteOp, denoteF_succ_compute hget, hok₁ ips rfl]
                  show (match denoteKwWith (denoteF g.nodes g.nodes.length)
                      node.kwinputs with
                    | none => none
                    | some (Except.error e) => some (Except.error e)
                    | some (Except.ok kps') =>
                      some (Except.ok (node.modifier.forward ips kps'))) =
                    some (Except.ok (node.modifier.forward ips kps))
                  rw [hok₂ kps rfl]
                refine ⟨?_, ?_, ?_⟩
                · intro j p hj
                  rw [← hc] at hj
                  by_cases hjid : j = id
                  · subst hjid
                    rw [Dict.get_set_self] at hj
                    injection hj with hj
                    injection hj with hj
                    rw [← hj]
                    exact hdenid
                  · rw [Dict.get_set_ne c₂ id j _ fun hc' => hjid hc'] at hj
                    exact hco₂ j p hj
                · intro j p hj
                  rw [← hc]
                  have hj₂ := hmono₂ j p (hmono₁ j p hj)
                  by_cases hjid : j = id
                  · subst hjid
                    rw [Dict.get_set_self]
                    have h1 := hco₂ j p hj₂
                    rw [hdenid] at h1
                    injection h1 with h1
                    injection h1 with h1
                    rw [h1]
                  · rw [Dict.get_set_ne c₂ id j _ fun hc' => hjid hc']
                    exact hj₂
                · intro v hv
                  rw [← hres] at hv
                  injection hv with hv
                  constructor
                  · rw [← hv]
                    exact hdenid
                  · rw [← hc, ← hv]
                    exact Dict.get_set_self _ _ _
      · simp only [synthF, hget] at h
        rw [hhit] at h
        replace h : (some (Except.ok p, c) : Option (Except Err Pattern × Cache)) =
            some (res, c') := h
        simp only [Option.some.injEq, Prod.mk.injEq] at h
        obtain ⟨hres, hc⟩ := h
        subst hc
        have hcget : Dict.get c id = some (some p) := by
          refine cacheHit_some ?_
          cases force with
          | true => exact absurd hhit (by simp)
          | false => simpa using hhit
        refine ⟨hco, cacheMono_refl c, ?_⟩
        intro v hv
        rw [← hres] at hv
        injection hv with hv
        subst hv
        exact ⟨hco id p hcget, hcget⟩

/-- Reverse-edge reachability: the downstream cone of a node, as recorded
by the `_outputs` index (the node itself included). -/
def OutReach (g : PatternFlow) : String → String → Prop :=
  Relation.ReflTransGen (OutEdge g)

theorem populateListWith_cons {p : Cache → String → Option (Except Err Unit × Cache)}
    {c : Cache} {d : String} {rest : List String} :
    populateListWith p c (d :: rest) =
      (match p c d with
       | none => none
       | some (Except.error e, c') => some (Except.error e, c')
       | some (Except.ok _, c') => populateListWith p c' rest) := rfl

theorem populateListWith_correct {g : PatternFlow} {fuel : Nat}
    (IH : ∀ c id res c', CoherentC g.nodes c →
      populateF g.nodes g.outputs fuel c id = some (res, c') →
      CoherentC g.nodes c' ∧ CacheMono c c' ∧
      (res = .ok () → ∀ d, OutReach g id d →
        ∃ v, Dict.get c' d = some (some v) ∧ denoteOp g.nodes d = some (.ok v))) :
    ∀ (ds : List String) (c : Cache) (res : Except Err Unit) (c' : Cache),
      CoherentC g.nodes c →
      populateListWith (fun c'' d => populateF g.nodes g.outputs fuel c'' d) c ds =
        some (res, c') →
      CoherentC g.nodes c' ∧ CacheMono c c' ∧
      (res = .ok () → ∀ d, d ∈ ds → ∀ d', OutReach g d d' →
        ∃ v, Dict.get c' d' = some (some v) ∧ denoteOp g.nodes d' = some (.ok v)) := by
  intro ds
  induction ds with
  | nil =>
    intro c res c' hco h
    replace h : (some (Except.ok (), c) : Option (Except Err Unit × Cache)) =
        some (res, c') := h
    simp only [Option.some.injEq, Prod.mk.injEq] at h
    obtain ⟨hres, hc⟩ := h
    subst hc
    exact ⟨hco, cacheMono_refl c, fun _ d hd => absurd hd (List.not_mem_nil d)⟩
  | cons d rest ih =>
    intro c res c' hco h
    rw [populateListWith_cons] at h
    rcases hp : populateF g.nodes g.outputs fuel c d with _ | ⟨r₀, c₀⟩
    · rw [hp] at h
      exact Option.noConfusion h
    · rw [hp] at h
      obtain ⟨hco₀, hmono₀, hok₀⟩ := IH c d r₀ c₀ hco hp
      rcases r₀ with e | u
      · replace h : (some (Except.error e, c₀) : Option (Except Err Unit × Cache)) =
            some (res, c') := h
        simp only [Option.some.injEq, Prod.mk.injEq] at h
        obtain ⟨hres, hc⟩ := h
        subst hc
        refine ⟨hco₀, hmono₀, ?_⟩
        intro hok
        rw [← hres] at hok
        exact absurd hok (by simp)
      · obtain ⟨⟩ := u
        obtain ⟨hco', hmono', hok'⟩ := ih c₀ res c' hco₀ h
        refine ⟨hco', cacheMono_trans hmono₀ hmono', ?_⟩
        intro hres d₁ hd₁ d' hreach
        rcases List.mem_cons.mp hd₁ with rfl | hd₁'
        · obtain ⟨v, hcache, hden⟩ := hok₀ rfl d' hreach
          exact ⟨v, hmono' d' v hcache, hden⟩
        · exact hok' hres d₁ hd₁' d' hreach

theorem populateF_correct {g : PatternFlow} (hacyc : g.Acyclic) :
    ∀ fuel c id res c', CoherentC g.nodes c →
      populateF g.nodes g.outputs fuel c id = some (res, c') →
      CoherentC g.nodes c' ∧ CacheMono c c' ∧
      (res = .ok () → ∀ d, OutReach g id d →
        ∃ v, Dict.get c' d = some (some v) ∧ denoteOp g.nodes d = some (.ok v)) := by
  intro fuel
  induction fuel with
  | zero => intro c id res c' _ h; exact absurd h (by simp [populateF])
  | succ fuel ih =>
    intro c id res c' hco h
    rcases hget : Dict.get g.nodes id with _ | node
    · simp only [populateF, hget] at h
      replace h : (some (Except.error (Err.keyError id), c) :
          Option (Except Err Unit × Cache)) = some (res, c') := h
      simp only [Option.some.injEq, Prod.mk.injEq] at h
      obtain ⟨hres, hc⟩ := h
      subst hc
      refine ⟨hco, cacheMono_refl c, ?_⟩
      intro hok
      rw [← hres] at hok
      exact absurd hok (by simp)
    · simp only [populateF, hget] at h
      replace h : (match synthF g.nodes (g.nodes.length + 1) c id true with
          | none => none
          | some (Except.error e, c₁) => some (Except.error e, c₁)
          | some (Except.ok _, c₁) =>
            populateListWith (fun c'' d => populateF g.nodes g.outputs fuel c'' d) c₁
              ((Dict.get g.outputs id).getD [])) = some (res, c') := h
      rcases hs : synthF g.nodes (g.nodes.length + 1) c id true with _ | ⟨rs, c₁⟩
      · rw [hs] at h
        exact Option.noConfusion h
      · rw [hs] at h
        obtain ⟨hco₁, hmono₁, hok₁⟩ :=
          synthF_correct hacyc (g.nodes.length + 1) c id true rs c₁ hco hs
        rcases rs with e | v
        · replace h : (some (Except.error e, c₁) : Option (Except Err Unit × Cache)) =
              some (res, c') := h
          simp only [Option.some.injEq, Prod.mk.injEq] at h
          obtain ⟨hres, hc⟩ := h
          subst hc
          refine ⟨hco₁, hmono₁, ?_⟩
          intro hok
          rw [← hres] at hok
          exact absurd hok (by simp)
        · obtain ⟨hco', hmono', hok'⟩ := populateListWith_correct ih
            ((Dict.get g.outputs id).getD []) c₁ res c' hco₁ h
          refine ⟨hco', cacheMono_trans hmono₁ hmono', ?_⟩
          intro hres d' hreach
          rcases Relation.ReflTransGen.cases_head hreach with rfl | ⟨b, hb, hreach'⟩
          · obtain ⟨hden, hcache₁⟩ := hok₁ v rfl
            exact ⟨v, hmono' id v hcache₁, hden⟩
          · exact hok' hres b hb d' hreach'

/-- C8: for every graph satisfying the structural and cache-coherence
invariants, a successful `populate(id)` leaves the node dictionary
untouched and leaves the cache slot of `id` and of every node in its
downstream cone (reachable through the reverse-edge index, `id`
included) holding exactly the value that node denotes against the
current graph state — a freshly computed, non-stale cache, also under
diamond-shaped fan-in where nodes are recomputed more than once. -/
theorem C8_populate_downstream_fresh (g : PatternFlow) (id : String) (g' : PatternFlow)
    (hacyc : g.Acyclic) (hco : CoherentC g.nodes g.cache)
    (h : g.populateOp id = some (.ok (), g')) :
    g'.nodes = g.nodes ∧
    ∀ d, OutReach g id d →
      ∃ v, Dict.get g'.cache d = some (some v) ∧ denoteOp g'.nodes d = some (.ok v) := by
  unfold PatternFlow.populateOp at h
  rcases hp : populateF g.nodes g.outputs (g.nodes.length + 1) g.cache id with _ | ⟨r, c⟩
  · rw [hp] at h
    exact Option.noConfusion h
  · rw [hp] at h
    simp only [Option.map, Option.some.injEq, Prod.mk.injEq] at h
    obtain ⟨hr, hg'⟩ := h
    subst hg'
    rw [hr] at hp
    obtain ⟨_, _, hok⟩ :=
      populateF_correct hacyc (g.nodes.length + 1) g.cache id (.ok ()) c hco hp
    exact ⟨rfl, hok rfl⟩

/-- C9 counterexample: the claim says positional input references may be
null, but the source annotates `inputs : list[str]`, so pydantic rejects
a node carrying a `None` positional reference — such a node can never be
constructed. -/
theorem C9_counterexample :
    PatternFlowNode.pydValid ⟨FromPattern Pattern.empty, [none], []⟩ = false := rfl

/-- C9 (amended): keyword input references may be null (pydantic accepts
`None` in `kwinputs : dict[str, str | None]`) while positional
references may not (`inputs : list[str]` rejects `None`); `synth`
substitutes the default empty `Pattern()` for every null reference it
encounters when invoking the node's capability — the code guards
positional references the same way, although validation means only null
keyword references can actually occur. -/
theorem C9_null_refs_amended :
    (∀ (m : Modifier) (k : String),
      PatternFlowNode.pydValid ⟨m, [], [(k, none)]⟩ = true) ∧
    (∀ (m : Modifier) (rest : List (Option String))
      (kw : List (String × Option String)),
      PatternFlowNode.pydValid ⟨m, none :: rest, kw⟩ = false) ∧
    (∀ (nodes : List (String × PatternFlowNode)) (fuel : Nat) (c : Cache)
      (id : String) (m : Modifier) (k : String),
      Dict.get nodes id = some ⟨m, [], [(k, none)]⟩ →
      synthF nodes (fuel + 1) c id true =
        some (.ok (m.forward [] [(k, Pattern.empty)]),
          Dict.set c id (some (m.forward [] [(k, Pattern.empty)])))) ∧
    (∀ (nodes : List (String × PatternFlowNode)) (fuel : Nat) (c : Cache)
      (id : String) (m : Modifier),
      Dict.get nodes id = some ⟨m, [none], []⟩ →
      synthF nodes (fuel + 1) c id true =
        some (.ok (m.forward [Pattern.empty] []),
          Dict.set c id (some (m.forward [Pattern.empty] [])))) := by
  refine ⟨fun m k => rfl, fun m rest kw => rfl, ?_, ?_⟩
  · intro nodes fuel c id m k hget
    rw [synthF_succ_compute hget (by simp)]
    rfl
  · intro nodes fuel c id m hget
    rw [synthF_succ_compute hget (by simp)]
    rfl

/-- Witness fixtures: a one-node graph, a two-node graph with one
consumer, and assorted replacement nodes. -/
def wNode : PatternFlowNode := ⟨FromPattern Pattern.empty, [], []⟩

def wG : PatternFlow := ⟨[("A", wNode)], [("A", [])], [("A", none)]⟩

def wBadNode : PatternFlowNode := ⟨FromPattern Pattern.empty, [some "X"], []⟩

def wGBad : PatternFlow := ⟨[("A", wBadNode)], [("A", [])], [("A", none)]⟩

def wConsumer : PatternFlowNode := ⟨FromPattern Pattern.empty, [some "A"], []⟩

def wGAB : PatternFlow :=
  ⟨[("A", wNode), ("B", wConsumer)], [("A", ["B"]), ("B", [])],
    [("A", none), ("B", none)]⟩

def wCycNode : PatternFlowNode := ⟨FromPattern Pattern.empty, [some "B"], []⟩

theorem synthOp_err_missing {g : PatternFlow} {id : String} {force : Bool}
    (h : Dict.get g.nodes id = none) :
    g.synthOp id force = some (.error (.keyError id), g) := by
  unfold PatternFlow.synthOp
  have hs : synthF g.nodes (g.nodes.length + 1) g.cache id force =
      some (.error (.keyError id), g.cache) := by
    simp only [synthF, h]
  rw [hs]
  rfl

theorem populateOp_err_missing {g : PatternFlow} {id : String}
    (h : Dict.get g.nodes id = none) :
    g.populateOp id = some (.error (.keyError id), g) := by
  unfold PatternFlow.populateOp
  have hp : populateF g.nodes g.outputs (g.nodes.length + 1) g.cache id =
      some (.error (.keyError id), g.cache) := by
    simp only [populateF, h]
  rw [hp]
  rfl

theorem create_err_badref {g : PatternFlow} {newId : String} {node : PatternFlowNode}
    {bad : String} (h : firstBadRef g.nodes node.refs = some bad) :
    g.create newId node = (.error (.keyError bad), g) := by
  unfold PatternFlow.create
  rw [h]

theorem wBad_cycleStart :
    PatternFlow.hasCycleStart { wG with nodes := Dict.set wG.nodes "A" wBadNode } "A"
      = false := by
  have hA := hasCycleFrom_main
    (show Dict.get ({ wG with nodes := Dict.set wG.nodes "A" wBadNode } : PatternFlow).nodes "A"
      = some wBadNode from rfl)
    (List.not_mem_nil "A") (List.not_mem_nil "A")
  have hX : hasCycleFrom { wG with nodes := Dict.set wG.nodes "A" wBadNode } "X" ["A"] ["A"]
      = (false, ["A"]) := hasCycleFrom_none rfl
  unfold PatternFlow.hasCycleStart
  rw [hA]
  have e1 : cycleListWith
      (fun rid vis =>
        hasCycleFrom { wG with nodes := Dict.set wG.nodes "A" wBadNode } rid ("A" :: []) vis)
      wBadNode.refs ("A" :: []) =
    (match hasCycleFrom { wG with nodes := Dict.set wG.nodes "A" wBadNode } "X" ["A"] ["A"] with
     | (true, vis) => (true, vis)
     | (false, vis) =>
        cycleListWith
          (fun rid vis =>
            hasCycleFrom { wG with nodes := Dict.set wG.nodes "A" wBadNode } rid ("A" :: []) vis)
          [] vis) := rfl
  rw [e1, hX]
  rfl

/-- C2 counterexample: `update` on the one-node graph `wG` with a
replacement node whose input references the nonexistent id `"X"` raises
`KeyError` only after the node replacement has been committed: the
returned state `wGBad` holds the new (dangling) node, so the failed
operation did not leave the flow unchanged. -/
theorem C2_counterexample :
    wG.update "A" wBadNode = some (.error (.keyError "X"), wGBad) ∧
      wGBad.nodes ≠ wG.nodes := by
  constructor
  · have hW : Dict.get wG.nodes "A" = some wNode := rfl
    have hcs : PatternFlow.hasCycleStart
        { wG with nodes := Dict.set wG.nodes "A" wBadNode } "A" = false := wBad_cycleStart
    unfold PatternFlow.update
    rw [hW]
    simp only [hcs, Bool.false_eq_true, if_false]
    rfl
  · intro h
    have h1 : wBadNode = wNode := by
      simp only [wGBad, wG] at h
      simp only [List.cons.injEq, Prod.mk.injEq] at h
      exact h.1.2
    have h2 := congrArg PatternFlowNode.inputs h1
    simp [wBadNode, wNode] at h2

theorem wGAB_ref {a b : String} (h : PatternFlow.Ref wGAB a b) : a = "B" ∧ b = "A" := by
  obtain ⟨n, hn, hmem⟩ := h
  by_cases ha : a = "A"
  · subst ha
    rw [show Dict.get wGAB.nodes "A" = some wNode from rfl] at hn
    injection hn with hn'
    subst hn'
    simp [wNode, PatternFlowNode.refs] at hmem
  · by_cases hb : a = "B"
    · subst hb
      rw [show Dict.get wGAB.nodes "B" = some wConsumer from rfl] at hn
      injection hn with hn'
      subst hn'
      simp [wConsumer, PatternFlowNode.refs] at hmem
      exact ⟨rfl, hmem⟩
    · exfalso
      have hkeys : a ∉ Dict.keys wGAB.nodes := by
        simp [wGAB, Dict.keys, ha, hb]
      rw [Dict.get_of_not_mem_keys hkeys] at hn
      cases hn

theorem wGAB_acyclic : wGAB.Acyclic := by
  intro a ha
  have key : ∀ x y, wGAB.Steps x y → x = "B" ∧ y = "A" := by
    intro x y h
    induction h with
    | single h1 => exact wGAB_ref h1
    | tail h1 h2 ih =>
      exact absurd (ih.2.symm.trans (wGAB_ref h2).1) (by decide)
  obtain ⟨h1, h2⟩ := key a a ha
  exact absurd (h1.symm.trans h2) (by decide)

theorem wGAB_cyc_not_acyclic :
    ¬ PatternFlow.Acyclic { wGAB with nodes := Dict.set wGAB.nodes "A" wCycNode } := by
  intro h
  have r1 : PatternFlow.Ref { wGAB with nodes := Dict.set wGAB.nodes "A" wCycNode } "A" "B" :=
    ⟨wCycNode, rfl, by simp [wCycNode, PatternFlowNode.refs]⟩
  have r2 : PatternFlow.Ref { wGAB with nodes := Dict.set wGAB.nodes "A" wCycNode } "B" "A" :=
    ⟨wConsumer, rfl, by simp [wConsumer, PatternFlowNode.refs]⟩
  exact h "A" (Relation.TransGen.head r1 (Relation.TransGen.single r2))

theorem C3_update_cycle_error_rollback_witness :
    wGAB.Acyclic ∧ Dict.get wGAB.nodes "A" = some wNode ∧
    ¬ PatternFlow.Acyclic { wGAB with nodes := Dict.set wGAB.nodes "A" wCycNode } ∧
    wGAB.update "A" wCycNode = some (.error (.valueError "A"), wGAB) :=
  ⟨wGAB_acyclic, rfl, wGAB_cyc_not_acyclic,
    C3_update_cycle_error_rollback wGAB "A" wCycNode wNode wGAB_acyclic rfl
      wGAB_cyc_not_acyclic⟩

def wGdel : PatternFlow := ⟨[("B", wConsumer)], [("B", [])], [("B", none)]⟩

/-- C6 counterexample: in the two-node graph `wGAB`, where node `"B"`
lists node `"A"` among its inputs, `delete "A"` does not complete
successfully: the repopulation of the consumer raises `KeyError "A"`
during the delete call itself, and the returned state `wGdel` already
lacks `"A"`. -/
theorem C6_counterexample :
    wGAB.delete "A" = some (.error (.keyError "A"), wGdel) ∧
      Dict.get wGdel.nodes "A" = none :=
  ⟨rfl, rfl⟩

theorem synthF_missing_not_ok {nodes : List (String × PatternFlowNode)} {a : String}
    (hna : Dict.get nodes a = none) :
    ∀ fuel c force v c', synthF nodes fuel c a force ≠ some (.ok v, c') := by
  intro fuel c force v c' h
  cases fuel with
  | zero => simp [synthF] at h
  | succ n => simp [synthF, hna] at h

theorem synthListWith_not_ok {s : Cache → String → Option (Except Err Pattern × Cache)}
    {a : String} (hs : ∀ c v c', s c a ≠ some (.ok v, c')) :
    ∀ refs c vs c', some a ∈ refs → synthListWith s c refs ≠ some (.ok vs, c') := by
  intro refs
  induction refs with
  | nil => intro c vs c' hmem _; cases hmem
  | cons ref rest ih =>
    intro c vs c' hmem h
    simp only [synthListWith] at h
    split at h
    · cases h
    · simp at h
    · rename_i p c₁ hhead
      split at h
      · cases h
      · simp at h
      · rename_i ps c₂ hrest
        rcases List.mem_cons.mp hmem with heq | hmem'
        · rw [← heq] at hhead
          exact hs c p c₁ hhead
        · exact ih c₁ ps c₂ hmem' hrest

theorem synthKwWith_not_ok {s : Cache → String → Option (Except Err Pattern × Cache)}
    {a : String} (hs : ∀ c v c', s c a ≠ some (.ok v, c')) :
    ∀ kwrefs c vs c', some a ∈ kwrefs.map Prod.snd →
      synthKwWith s c kwrefs ≠ some (.ok vs, c') := by
  intro kwrefs
  induction kwrefs with
  | nil => intro c vs c' hmem _; cases hmem
  | cons kr rest ih =>
    intro c vs c' hmem h
    obtain ⟨key, ref⟩ := kr
    simp only [synthKwWith] at h
    split at h
    · cases h
    · simp at h
    · rename_i p c₁ hhead
      split at h
      · cases h
      · simp at h
      · rename_i ps c₂ hrest
        simp only [List.map_cons] at hmem
        rcases List.mem_cons.mp hmem with heq | hmem'
        · rw [← heq] at hhead
          exact hs c p c₁ hhead
        · exact ih c₁ ps c₂ hmem' hrest

theorem synthF_consumer_not_ok {nodes : List (String × PatternFlowNode)} {a cid : String}
    {nc : PatternFlowNode} (hna : Dict.get nodes a = none)
    (hc : Dict.get nodes cid = some nc) (hmem : some a ∈ nc.refs) :
    ∀ fuel cache v cache', synthF nodes fuel cache cid true ≠ some (.ok v, cache') := by
  intro fuel cache v cache' h
  cases fuel with
  | zero => simp [synthF] at h
  | succ n =>
    have hstep : ∀ c₁ v₁ c₁', synthF nodes n c₁ a false ≠ some (.ok v₁, c₁') :=
      fun c₁ v₁ c₁' => synthF_missing_not_ok hna n c₁ false v₁ c₁'
    rw [synthF_succ_compute hc (by simp)] at h
    split at h
    · cases h
    · simp at h
    · rename_i ips c₁ hips
      split at h
      · cases h
      · simp at h
      · rename_i kps c₂ hkps
        simp only [PatternFlowNode.refs, List.mem_append] at hmem
        rcases hmem with hin | hkw
        · exact synthListWith_not_ok hstep nc.inputs cache ips c₁ hin hips
        · exact synthKwWith_not_ok hstep nc.kwinputs c₁ kps c₂ hkw hkps

theorem populateListWith_ok_head {p : Cache → String → Option (Except Err Unit × Cache)}
    {c : Cache} {d : String} {rest : List String} {u : Unit} {c' : Cache}
    (h : populateListWith p c (d :: rest) = some (.ok u, c')) :
    ∃ c₁, p c d = some (.ok (), c₁) := by
  rw [populateListWith_cons] at h
  split at h
  · cases h
  · simp at h
  · rename_i x c₁ hpc
    cases x
    exact ⟨c₁, hpc⟩

theorem populateF_ok_synth {nodes : List (String × PatternFlowNode)}
    {outputs : List (String × List String)} {fuel : Nat} {c : Cache} {id : String}
    {u : Unit} {c' : Cache}
    (h : populateF nodes outputs fuel c id = some (.ok u, c')) :
    ∃ v c₁, synthF nodes (nodes.length + 1) c id true = some (.ok v, c₁) := by
  cases fuel with
  | zero => simp [populateF] at h
  | succ n =>
    simp only [populateF] at h
    split at h
    · simp at h
    · split at h
      · cases h
      · simp at h
      · rename_i v c₁ hs
        exact ⟨v, c₁, hs⟩

theorem setDiscardAll_ok_of_keys :
    ∀ (refs : List (Option String)) (outs : List (String × List String)) (member : String),
      (∀ r, some r ∈ refs → r ∈ Dict.keys outs) →
      ∃ outs', setDiscardAll outs refs member = (.ok (), outs') ∧
        Dict.keys outs' = Dict.keys outs := by
  intro refs
  induction refs with
  | nil => intro outs member _; exact ⟨outs, rfl, rfl⟩
  | cons ref rest ih =>
    intro outs member href
    cases ref with
    | none =>
      obtain ⟨outs', h1, h2⟩ := ih outs member fun r hr => href r (List.mem_cons_of_mem _ hr)
      exact ⟨outs', h1, h2⟩
    | some k =>
      have hk : k ∈ Dict.keys outs := href k (List.mem_cons_self _ _)
      obtain ⟨s, hs⟩ := Option.isSome_iff_exists.mp (Dict.isSome_get_of_mem_keys hk)
      have hkeys := Dict.keys_set_of_get hs (s.erase member)
      obtain ⟨outs', h1, h2⟩ := ih (Dict.set outs k (s.erase member)) member
        (fun r hr => by rw [hkeys]; exact href r (List.mem_cons_of_mem _ hr))
      refine ⟨outs', ?_, h2.trans hkeys⟩
      show (match setDiscard outs k member with
            | .error e => (Except.error e, outs)
            | .ok outs₁ => setDiscardAll outs₁ rest member) = (.ok (), outs')
      rw [show setDiscard outs k member = .ok (Dict.set outs k (s.erase member)) from by
        unfold setDiscard; rw [hs]]
      exact h1

/-- C6 (amended): deleting a node that still has consumers does not
complete successfully.  `delete(a)` removes `a` from the node dict and
then repopulates every consumer listed in `outputs[a]`; that forced
resynthesis hits the dangling reference, so the error surfaces during
the `delete` call itself — not at a later `synth` — and any state
returned by the failing call already lacks `a`.  Forced resynthesis of
a consumer against the post-delete node dict likewise never succeeds
(part two: the dangling reference makes every forced `synth` of a
consumer fail). -/
theorem C6_delete_with_consumers_amended (g : PatternFlow) (a : String)
    (na : PatternFlowNode)
    (hget : Dict.get g.nodes a = some na)
    (hrefs : ∀ r, some r ∈ na.refs → r ∈ Dict.keys g.outputs)
    (hdown : ∀ d ∈ (Dict.get g.outputs a).getD [], ∃ nd,
      Dict.get g.nodes d = some nd ∧ some a ∈ nd.refs ∧ d ≠ a)
    (hne : (Dict.get g.outputs a).getD [] ≠ []) :
    (∀ res g', g.delete a = some (res, g') →
      g'.nodes = Dict.erase g.nodes a ∧ Dict.get g'.nodes a = none ∧
      ∃ e, res = .error e) ∧
    (∀ d nd, Dict.get (Dict.erase g.nodes a) d = some nd → some a ∈ nd.refs →
      ∀ fuel c v c', synthF (Dict.erase g.nodes a) fuel c d true ≠ some (.ok v, c')) := by
  constructor
  · intro res g' h
    obtain ⟨outs₁, hdisc, hkeys₁⟩ := setDiscardAll_ok_of_keys na.refs g.outputs a hrefs
    unfold PatternFlow.delete at h
    rw [hget] at h
    simp only at h
    split at h
    · rename_i e outs₂ hd
      rw [hdisc] at hd
      cases hd
    · rename_i u outs₂ hd
      rw [hdisc] at hd
      injection hd with hd1 hd2
      subst hd2
      rcases hdl : (Dict.get g.outputs a).getD [] with _ | ⟨d₀, ds⟩
      · exact absurd hdl hne
      · rw [hdl] at h
        split at h
        · cases h
        · rename_i e c' hpop
          simp only [Option.some.injEq, Prod.mk.injEq] at h
          obtain ⟨hres, hg'⟩ := h
          refine ⟨?_, ?_, ⟨e, hres.symm⟩⟩
          · rw [← hg']
          · rw [← hg']
            exact Dict.get_erase_self g.nodes a
        · rename_i u' c' hpop
          exfalso
          obtain ⟨c₁, hp₀⟩ := populateListWith_ok_head hpop
          obtain ⟨v, c₂, hsy⟩ := populateF_ok_synth hp₀
          obtain ⟨nd, hnd, hmemd, hda⟩ := hdown d₀ (by rw [hdl]; exact List.mem_cons_self _ _)
          exact synthF_consumer_not_ok (Dict.get_erase_self g.nodes a)
            (by rw [Dict.get_erase_ne g.nodes a d₀ hda]; exact hnd) hmemd
            _ _ v c₂ hsy
  · intro d nd hgetd hmemd fuel c v c'
    exact synthF_consumer_not_ok (Dict.get_erase_self g.nodes a) hgetd hmemd fuel c v c'

theorem C6_delete_with_consumers_amended_witness :
    Dict.get wGAB.nodes "A" = some wNode ∧
    wGAB.delete "A" = some (.error (.keyError "A"), wGdel) ∧
    wGdel.nodes = Dict.erase wGAB.nodes "A" ∧
    Dict.get wGdel.nodes "A" = none := by
  obtain ⟨h1, _⟩ := C6_delete_with_consumers_amended wGAB "A" wNode rfl
    (fun r hr => by simp [wNode, PatternFlowNode.refs] at hr)
    (fun d hd => by
      simp [wGAB, Dict.get] at hd
      subst hd
      exact ⟨wConsumer, rfl, by simp [wConsumer, PatternFlowNode.refs], by decide⟩)
    (by decide)
  obtain ⟨ha, hb, _⟩ := h1 (.error (.keyError "A")) wGdel rfl
  exact ⟨rfl, rfl, ha, hb⟩

theorem wG_hcf_A : hasCycleFrom wG "A" [] [] = (false, ["A"]) := by
  rw [hasCycleFrom_main (show Dict.get wG.nodes "A" = some wNode from rfl)
    (List.not_mem_nil "A") (List.not_mem_nil "A")]
  rfl

theorem wG_hasCycle : wG.hasCycle = false := by
  have hA := hasCycleFrom_main (show Dict.get wG.nodes "A" = some wNode from rfl)
    (List.not_mem_nil "A") (List.not_mem_nil "A")
  show hasCycleAll wG ["A"] [] = false
  rw [show hasCycleAll wG ["A"] [] =
    (if "A" ∈ ([] : List String) then hasCycleAll wG [] []
     else match hasCycleFrom wG "A" [] [] with
          | (true, _) => true
          | (false, visited) => hasCycleAll wG [] visited) from rfl]
  rw [if_neg (List.not_mem_nil "A")]
  rw [hA]
  rfl

theorem make_ok_of (ns : List (String × PatternFlowNode)) (outs : List (String × List String))
    (hbo : buildOutputs ns (ns.map fun p => (p.1, [])) = .ok outs)
    (hnc : PatternFlow.hasCycle ⟨ns, outs, ns.map fun p => (p.1, none)⟩ = false)
    (hv : validateIds ns ns = none) :
    PatternFlow.make ns = .ok ⟨ns, outs, ns.map fun p => (p.1, none)⟩ := by
  unfold PatternFlow.make
  rw [hbo]
  simp only [hnc, Bool.false_eq_true, if_false, hv]

theorem make_wG : PatternFlow.make [("A", wNode)] = .ok wG :=
  make_ok_of [("A", wNode)] [("A", [])] rfl wG_hasCycle rfl

theorem C1_reachable_graphs_acyclic_witness :
    PatternFlow.make [("A", wNode)] = .ok wG ∧ wG.Acyclic :=
  ⟨make_wG, C1_reachable_graphs_acyclic wG (ReachableState.made [("A", wNode)] wG make_wG)⟩

theorem C4_has_cycle_correct_witness :
    ("A" ∈ ["A"] ∧ "A" ∉ ["B"] ∧ hasCycleFrom wG "A" ["B"] ["A"] = (false, ["A"])) ∧
    (Dict.get wG.nodes "Z" = none ∧ hasCycleFrom wG "Z" ["B"] ["C"] = (false, ["C"])) ∧
    ("A" ∈ (hasCycleFrom wG "A" [] []).2 ∧ ("A" = "A" ∨ wG.Steps "A" "A")) := by
  obtain ⟨_, h2, h3, h4⟩ := C4_has_cycle_correct wG
  have hv : "A" ∈ (hasCycleFrom wG "A" [] []).2 := by
    rw [wG_hcf_A]
    exact List.mem_cons_self _ _
  refine ⟨⟨List.mem_cons_self _ _, by decide,
      h2 "A" ["B"] ["A"] (List.mem_cons_self _ _) (by decide)⟩,
    ⟨rfl, h3 "Z" ["B"] ["C"] rfl⟩, ⟨hv, h4 "A" "A" hv⟩⟩

def wGsyn : PatternFlow := ⟨[("A", wNode)], [("A", [])], [("A", some Pattern.empty)]⟩

theorem C5_synth_twice_cached_witness :
    wG.synthOp "A" false = some (.ok Pattern.empty, wGsyn) ∧
    wGsyn.synthOp "A" false = some (.ok Pattern.empty, wGsyn) :=
  ⟨rfl, C5_synth_twice_cached wG "A" Pattern.empty wGsyn rfl⟩

theorem C7_construction_fails_witness :
    PatternFlow.Steps ⟨[("A", wCycNode), ("B", wConsumer)], [], []⟩ "A" "A" ∧
    (∃ e, PatternFlow.make [("A", wCycNode), ("B", wConsumer)] = .error e) ∧
    Dict.get [("A", wBadNode)] "X" = none ∧
    (∃ r', PatternFlow.make [("A", wBadNode)] = .error (.keyError r')) := by
  have r1 : PatternFlow.Ref ⟨[("A", wCycNode), ("B", wConsumer)], [], []⟩ "A" "B" :=
    ⟨wCycNode, rfl, by simp [wCycNode, PatternFlowNode.refs]⟩
  have r2 : PatternFlow.Ref ⟨[("A", wCycNode), ("B", wConsumer)], [], []⟩ "B" "A" :=
    ⟨wConsumer, rfl, by simp [wConsumer, PatternFlowNode.refs]⟩
  have hstep : PatternFlow.Steps ⟨[("A", wCycNode), ("B", wConsumer)], [], []⟩ "A" "A" :=
    Relation.TransGen.head r1 (Relation.TransGen.single r2)
  obtain ⟨h1, _⟩ := C7_construction_fails [("A", wCycNode), ("B", wConsumer)]
  obtain ⟨_, h2⟩ := C7_construction_fails [("A", wBadNode)]
  exact ⟨hstep, h1 ⟨"A", hstep⟩, rfl,
    h2 ⟨"A", wBadNode, "X", List.mem_cons_self _ _,
      by simp [wBadNode, PatternFlowNode.refs], rfl⟩⟩

theorem wG_no_ref : ∀ x y, ¬ PatternFlow.Ref wG x y := by
  rintro x y ⟨n, hn, hmem⟩
  rcases List.mem_cons.mp (Dict.get_mem hn) with hc | hc
  · rw [Prod.mk.injEq] at hc
    obtain ⟨hx, hn'⟩ := hc
    subst hn'
    simp [wNode, PatternFlowNode.refs] at hmem
  · cases hc

theorem wG_acyclic : wG.Acyclic := by
  intro a ha
  cases ha with
  | single h => exact wG_no_ref _ _ h
  | tail h1 h2 => exact wG_no_ref _ _ h2

theorem wG_coherent : CoherentC wG.nodes wG.cache := by
  intro id p h
  by_cases hid : "A" = id
  · rw [show Dict.get wG.cache id = some none from by rw [← hid]; rfl] at h
    simp at h
  · rw [show Dict.get wG.cache id = none from by simp [wG, Dict.get, hid]] at h
    cases h

theorem wG_sound : OutputsSound wG := by
  intro a b hedge
  exfalso
  unfold OutEdge at hedge
  by_cases ha : "A" = a
  · rw [show Dict.get wG.outputs a = some [] from by rw [← ha]; rfl] at hedge
    simp at hedge
  · rw [show Dict.get wG.outputs a = none from by simp [wG, Dict.get, ha]] at hedge
    simp at hedge

theorem C8_populate_downstream_fresh_witness :
    wG.Acyclic ∧ CoherentC wG.nodes wG.cache ∧
    wG.populateOp "A" = some (.ok (), wGsyn) ∧
    (wGsyn.nodes = wG.nodes ∧ ∀ d, OutReach wG "A" d →
      ∃ v, Dict.get wGsyn.cache d = some (some v) ∧
        denoteOp wGsyn.nodes d = some (.ok v)) :=
  ⟨wG_acyclic, wG_coherent, rfl,
    C8_populate_downstream_fresh wG "A" wGsyn wG_acyclic wG_coherent rfl⟩

def wKwNode : PatternFlowNode := ⟨FromPattern Pattern.empty, [], [("k", none)]⟩

def wPosNode : PatternFlowNode := ⟨FromPattern Pattern.empty, [none], []⟩

theorem C9_null_refs_amended_witness :
    PatternFlowNode.pydValid wKwNode = true ∧
    PatternFlowNode.pydValid wPosNode = false ∧
    Dict.get [("K", wKwNode)] "K" = some wKwNode ∧
    synthF [("K", wKwNode)] 1 [] "K" true =
      some (.ok (Modifier.forward (FromPattern Pattern.empty) [] [("k", Pattern.empty)]),
        Dict.set [] "K"
          (some (Modifier.forward (FromPattern Pattern.empty) [] [("k", Pattern.empty)]))) ∧
    Dict.get [("P", wPosNode)] "P" = some wPosNode ∧
    synthF [("P", wPosNode)] 1 [] "P" true =
      some (.ok (Modifier.forward (FromPattern Pattern.empty) [Pattern.empty] []),
        Dict.set [] "P"
          (some (Modifier.forward (FromPattern Pattern.empty) [Pattern.empty] []))) := by
  obtain ⟨h1, h2, h3, h4⟩ := C9_null_refs_amended
  exact ⟨h1 (FromPattern Pattern.empty) "k", h2 (FromPattern Pattern.empty) [] [],
    rfl, h3 [("K", wKwNode)] 0 [] "K" (FromPattern Pattern.empty) "k" rfl,
    rfl, h4 [("P", wPosNode)] 0 [] "P" (FromPattern Pattern.empty) rfl⟩

theorem C10_synth_populate_terminate_witness :
    wG.Acyclic ∧ OutputsSound wG ∧
    (wG.synthOp "A" false).isSome ∧ (wG.populateOp "A").isSome := by
  obtain ⟨h1, h2⟩ := C10_synth_populate_terminate wG "A" false wG_acyclic wG_sound
  exact ⟨wG_acyclic, wG_sound, h1, h2⟩

/-- A node with one valid upstream reference (`"A"`) followed by a
dangling one (`"X"`): synthesizing it caches `"A"`'s value and then
raises. -/
def wSNode : PatternFlowNode := ⟨FromPattern Pattern.empty, [some "A", some "X"], []⟩

def wGS : PatternFlow :=
  ⟨[("A", wNode), ("S", wSNode)], [("A", ["S"]), ("S", [])], [("A", none), ("S", none)]⟩

/-- `wGS` after the failing synthesis of `"S"`: the cache slot of `"A"`
now holds the value computed before the dangling reference raised. -/
def wGSerr : PatternFlow :=
  ⟨[("A", wNode), ("S", wSNode)], [("A", ["S"]), ("S", [])],
    [("A", some Pattern.empty), ("S", none)]⟩

/-- C2 (amended): error atomicity holds only on specific error paths.
It holds when the target id is missing — `update`, `delete`, `synth`
and `populate` raise `KeyError(id)` with nodes, outputs and cache
exactly as before — when `update` detects a cycle (the old node is
rolled back in place and the prior state is preserved), and for
`create` with a dangling reference (validation precedes any mutation).
Other error paths mutate state, shown here as proved concrete
instances: `update` with a dangling reference commits the replacement
node before the reverse-edge insertion raises (the counterexample);
`delete` of a node with consumers removes the node before the consumer
repopulation raises; and a failing `synth` or `populate` retains the
cache entries written for upstream nodes synthesized before the
error. -/
theorem C2_error_atomicity_amended (g : PatternFlow) (id : String) (node : PatternFlowNode) :
    (Dict.get g.nodes id = none →
      g.update id node = some (.error (.keyError id), g) ∧
      g.delete id = some (.error (.keyError id), g) ∧
      (∀ force, g.synthOp id force = some (.error (.keyError id), g)) ∧
      g.populateOp id = some (.error (.keyError id), g)) ∧
    (∀ oldNode, g.Acyclic → Dict.get g.nodes id = some oldNode →
      ¬ PatternFlow.Acyclic { g with nodes := Dict.set g.nodes id node } →
      g.update id node = some (.error (.valueError id), g)) ∧
    (∀ bad, firstBadRef g.nodes node.refs = some bad →
      g.create id node = (.error (.keyError bad), g)) ∧
    (wGAB.delete "A" = some (.error (.keyError "A"), wGdel) ∧
      wGdel.nodes ≠ wGAB.nodes) ∧
    (wGS.synthOp "S" true = some (.error (.keyError "X"), wGSerr) ∧
      wGSerr.cache ≠ wGS.cache) ∧
    (wGS.populateOp "S" = some (.error (.keyError "X"), wGSerr) ∧
      wGSerr.cache ≠ wGS.cache) := by
  refine ⟨fun h => ⟨update_err_missing h, delete_err_missing h,
      fun _ => synthOp_err_missing h, populateOp_err_missing h⟩,
    fun oldNode hacyc hget hcyc => update_rollback_of_cycle g id node oldNode hacyc hget hcyc,
    fun _ hbad => create_err_badref hbad,
    ⟨rfl, ?_⟩, ⟨rfl, ?_⟩, ⟨rfl, ?_⟩⟩
  · intro h
    have h2 := congrArg List.length h
    simp [wGdel, wGAB] at h2
  · intro h
    have h2 := congrArg List.head? h
    simp [wGSerr, wGS] at h2
  · intro h
    have h2 := congrArg List.head? h
    simp [wGSerr, wGS] at h2

theorem C2_error_atomicity_amended_witness :
    Dict.get wG.nodes "Z" = none ∧
    wG.update "Z" wBadNode = some (.error (.keyError "Z"), wG) ∧
    wGAB.Acyclic ∧
    wGAB.update "A" wCycNode = some (.error (.valueError "A"), wGAB) ∧
    firstBadRef wG.nodes wBadNode.refs = some "X" ∧
    wG.create "C" wBadNode = (.error (.keyError "X"), wG) := by
  obtain ⟨h1, _⟩ := C2_error_atomicity_amended wG "Z" wBadNode
  obtain ⟨_, h2, _⟩ := C2_error_atomicity_amended wGAB "A" wCycNode
  obtain ⟨_, _, h3, _⟩ := C2_error_atomicity_amended wG "C" wBadNode
  exact ⟨rfl, (h1 rfl).1, wGAB_acyclic,
    h2 wNode wGAB_acyclic rfl wGAB_cyc_not_acyclic, rfl, h3 "X" rfl⟩
